import Mathlib

/-!
# get_next_line: a shallow embedding and its verified properties

The C sources `get_next_line.c` and `get_next_line_utils.c` are embedded as Lean
functions over an explicit world state.

Modelling conventions
* A byte is a natural number; `0` is the NUL byte and `10` is the newline.
* A `char *` is an `Option (List Byte)`: `none` is `NULL`, `some s` points at the
  bytes `s`, and every index at or after `s.length` reads as the NUL terminator.
  A C function that scans "until NUL" therefore stops at the first `0` of `s` or
  at its end, whichever comes first.
* `int` counters are natural numbers (signed overflow is undefined behaviour in C
  and is not modelled).
* `BUFFER_SIZE` is a compile-time macro and is passed as the first argument.
* `static char *text` is passed in and returned explicitly.
* `free` has no observable effect in this model and is omitted.
* `ft_strlen` declares its parameter as `str` and uses `s` in its body; the
  embedding reads the two names as the same parameter.
-/

namespace GNL

abbrev Byte := Nat

/-- One scripted behaviour of a `read` call: `fail` makes it return `-1`,
`short k` makes it deliver at most `k` bytes (a short read). -/
inductive ReadEv where
  | fail : ReadEv
  | short (k : Nat) : ReadEv
deriving DecidableEq, Repr

/-- The environment of the program.
* `files fd` are the bytes of the stream behind descriptor `fd` not yet delivered;
* `script` scripts the coming `read` calls (when empty, `read` delivers as many
  bytes as asked for and available and never fails);
* `allocs` scripts the outcomes of the coming `malloc` calls (when empty, `malloc`
  succeeds);
* `nread` counts the `read` calls issued so far;
* `asked` logs the sizes passed to `malloc`, oldest first. -/
structure World where
  files : Int → List Byte
  script : List ReadEv
  allocs : List Bool
  nread : Nat
  asked : List Nat

/-- `malloc(size)`: `true` when the allocation succeeds. -/
def malloc (size : Nat) (w : World) : Bool × World :=
  match w.allocs with
  | [] => (true, { w with asked := w.asked ++ [size] })
  | ok :: rest => (ok, { w with allocs := rest, asked := w.asked ++ [size] })

/-- `read(fd, buff, count)`: returns the `bytes` result, the bytes written at the
start of `buff`, and the new world. -/
def read (fd : Int) (count : Nat) (w : World) : Int × List Byte × World :=
  match w.script with
  | ReadEv.fail :: evs =>
      (-1, [], { w with script := evs, nread := w.nread + 1 })
  | ReadEv.short k :: evs =>
      ((((w.files fd).take (min k count)).length : Nat), (w.files fd).take (min k count),
        { w with files := Function.update w.files fd ((w.files fd).drop (min k count)),
                 script := evs, nread := w.nread + 1 })
  | [] =>
      ((((w.files fd).take count).length : Nat), (w.files fd).take count,
        { w with files := Function.update w.files fd ((w.files fd).drop count),
                 nread := w.nread + 1 })

/-- The number of iterations of `while (s[i]) i++`. -/
def strlen_loop : List Byte → Nat
  | [] => 0
  | b :: bs => if b = 0 then 0 else strlen_loop bs + 1

/-- `ft_strlen`. -/
def ft_strlen : Option (List Byte) → Nat
  | none => 0
  | some s => strlen_loop s

/-- The loop of `ft_strchr` started at index `i`, with the final test on `c`;
the result is the index pointed at. -/
def strchr_loop (c : Byte) : List Byte → Nat → Option Nat
  | [], i => if c = 0 then some i else none
  | b :: bs, i =>
      if b = 0 then (if c = 0 then some i else none)
      else if b = c then some i
      else strchr_loop c bs (i + 1)

/-- `ft_strchr`: `none` is `NULL`, `some i` is `&s[i]`. -/
def ft_strchr (s : Option (List Byte)) (c : Byte) : Option Nat :=
  match s with
  | none => none
  | some l => strchr_loop c l 0

/-- The bytes copied by `while (s && s[i]) new[..] = s[i]`: those before the
first NUL. -/
def copy_str : List Byte → List Byte
  | [] => []
  | b :: bs => if b = 0 then [] else b :: copy_str bs

/-- `ft_strjoin`. -/
def ft_strjoin (s1 s2 : Option (List Byte)) (w : World) : Option (List Byte) × World :=
  if s1 = none ∧ s2 = none then (none, w)
  else
    match malloc (ft_strlen s1 + ft_strlen s2 + 1) w with
    | (false, w1) => (none, w1)
    | (true, w1) =>
        (some ((match s1 with | none => [] | some a => copy_str a) ++
               (match s2 with | none => [] | some b => copy_str b)), w1)

/-- The `while` loop of `read_file`. The first argument bounds the number of
iterations; `none` means the bound was reached with the loop condition still
true. -/
def read_loop (BUFFER_SIZE : Int) (fd : Int) :
    Nat → Int → Option (List Byte) → World → Option (Option (List Byte) × World)
  | 0, bytes, text, w =>
      if bytes > 0 ∧ (text = none ∨ ft_strchr text 10 = none) then none
      else some (text, w)
  | fuel + 1, bytes, text, w =>
      if bytes > 0 ∧ (text = none ∨ ft_strchr text 10 = none) then
        match read fd BUFFER_SIZE.toNat w with
        | (bytes1, buff, w1) =>
            if bytes1 = -1 then some (none, w1)
            else
              match ft_strjoin text (some buff) w1 with
              | (none, w2) => some (none, w2)
              | (some t, w2) => read_loop BUFFER_SIZE fd fuel bytes1 (some t) w2
      else some (text, w)

/-- `read_file`. The iteration bound handed to the loop is one more than the
number of unread bytes (`read_loop_enough` shows that it is never reached). -/
def read_file (BUFFER_SIZE : Int) (fd : Int) (text : Option (List Byte)) (w : World) :
    Option (Option (List Byte) × World) :=
  match malloc (BUFFER_SIZE + 1).toNat w with
  | (false, w1) => some (none, w1)
  | (true, w1) => read_loop BUFFER_SIZE fd ((w1.files fd).length + 1) 1 text w1

/-- The number of iterations of `while (text[i] && text[i] != '\n') i++`. -/
def line_len : List Byte → Nat
  | [] => 0
  | b :: bs => if b = 0 ∨ b = 10 then 0 else line_len bs + 1

/-- `copy_line`. -/
def copy_line (text : Option (List Byte)) (w : World) : Option (List Byte) × World :=
  match text with
  | none => (none, w)
  | some t =>
      if t.getD 0 0 = 0 then (none, w)
      else
        match malloc (line_len t + 2) w with
        | (false, w1) => (none, w1)
        | (true, w1) =>
            if t.getD (line_len t) 0 = 10 then (some (t.take (line_len t) ++ [10]), w1)
            else (some (t.take (line_len t)), w1)

/-- `get_remainder`; its argument is never `NULL` at its one call site. -/
def get_remainder (text : List Byte) (w : World) : Option (List Byte) × World :=
  if text.getD (line_len text) 0 = 0 then (none, w)
  else
    match malloc (ft_strlen (some text) - line_len text) w with
    | (false, w1) => (none, w1)
    | (true, w1) => (some (copy_str (text.drop (line_len text + 1))), w1)

/-- `get_next_line`: returns the line, the new value of the static `text`, and
the new world; the outer `none` is the iteration bound of `read_loop`. -/
def get_next_line (BUFFER_SIZE : Int) (fd : Int) (text : Option (List Byte)) (w : World) :
    Option (Option (List Byte) × Option (List Byte) × World) :=
  if fd < 0 ∨ BUFFER_SIZE ≤ 0 then some (none, text, w)
  else
    match read_file BUFFER_SIZE fd text w with
    | none => none
    | some (none, w1) => some (none, none, w1)
    | some (some t, w1) =>
        match copy_line (some t) w1 with
        | (line, w2) =>
            match get_remainder t w2 with
            | (rest, w3) => some (line, rest, w3)

/-! ## Worlds and drivers -/

/-- A scripted read behaves well when it does not fail and delivers at least one
byte while bytes remain. -/
def ReadEv.ok : ReadEv → Bool
  | ReadEv.fail => false
  | ReadEv.short k => decide (1 ≤ k)

/-- No failure is scheduled: no scripted read fails or delivers nothing, and no
scripted allocation fails. -/
def Quiet (w : World) : Prop :=
  (∀ ev ∈ w.script, ReadEv.ok ev = true) ∧ (∀ b ∈ w.allocs, b = true)

instance (w : World) : Decidable (Quiet w) :=
  inferInstanceAs
    (Decidable ((∀ ev ∈ w.script, ReadEv.ok ev = true) ∧ (∀ b ∈ w.allocs, b = true)))

/-- A world in which descriptor `fd` is open on the stream `s`, with nothing
scripted: every read is a full read and every allocation succeeds. -/
def openFile (fd : Int) (s : List Byte) : World :=
  { files := fun d => if d = fd then s else [], script := [], allocs := [],
    nread := 0, asked := [] }

/-- A world in which descriptor `fd` is open on the stream `s`, with scripted
reads and scripted allocation outcomes. -/
def scripted (fd : Int) (s : List Byte) (script : List ReadEv) (allocs : List Bool) : World :=
  { files := fun d => if d = fd then s else [], script := script, allocs := allocs,
    nread := 0, asked := [] }

/-- A world with two open descriptors. -/
def openTwo (fdA : Int) (a : List Byte) (fdB : Int) (b : List Byte) : World :=
  { files := fun d => if d = fdA then a else if d = fdB then b else [],
    script := [], allocs := [], nread := 0, asked := [] }

/-- The results of `n` successive calls `get_next_line(fd)`, with the final value
of the static `text` and the final world. -/
def calls (BUFFER_SIZE : Int) (fd : Int) :
    Nat → Option (List Byte) → World →
      Option (List (Option (List Byte)) × Option (List Byte) × World)
  | 0, text, w => some ([], text, w)
  | n + 1, text, w =>
      match get_next_line BUFFER_SIZE fd text w with
      | none => none
      | some (line, text1, w1) =>
          match calls BUFFER_SIZE fd n text1 w1 with
          | none => none
          | some (ls, t, w2) => some (line :: ls, t, w2)

/-- The caller's loop `while ((line = get_next_line(fd))) ...`: the lines returned
before the first `NULL`. The first argument bounds the number of calls; `none`
means the bound was reached before a `NULL`. -/
def read_all (BUFFER_SIZE : Int) (fd : Int) :
    Nat → Option (List Byte) → World → Option (List (List Byte))
  | 0, _, _ => none
  | n + 1, text, w =>
      match get_next_line BUFFER_SIZE fd text w with
      | none => none
      | some (none, _, _) => some []
      | some (some l, text1, w1) =>
          match read_all BUFFER_SIZE fd n text1 w1 with
          | none => none
          | some ls => some (l :: ls)

/-- The results of `n` rounds of calls in the order A, B, A, B, ...: the results
for `fdA`, the results for `fdB`, and the final value of the static `text`. -/
def interleaved (BUFFER_SIZE : Int) (fdA fdB : Int) :
    Nat → Option (List Byte) → World →
      Option (List (Option (List Byte)) × List (Option (List Byte)) × Option (List Byte))
  | 0, text, _ => some ([], [], text)
  | n + 1, text, w =>
      match get_next_line BUFFER_SIZE fdA text w with
      | none => none
      | some (la, text1, w1) =>
          match get_next_line BUFFER_SIZE fdB text1 w1 with
          | none => none
          | some (lb, text2, w2) =>
              match interleaved BUFFER_SIZE fdA fdB n text2 w2 with
              | none => none
              | some (as, bs, t) => some (la :: as, lb :: bs, t)

/-- The values of the static `text` after each call of `n` rounds of calls in the
order A, B, A, B, ... -/
def interleaved_carry (BUFFER_SIZE : Int) (fdA fdB : Int) :
    Nat → Option (List Byte) → World → Option (List (Option (List Byte)))
  | 0, _, _ => some []
  | n + 1, text, w =>
      match get_next_line BUFFER_SIZE fdA text w with
      | none => none
      | some (_, text1, w1) =>
          match get_next_line BUFFER_SIZE fdB text1 w1 with
          | none => none
          | some (_, text2, w2) =>
              match interleaved_carry BUFFER_SIZE fdA fdB n text2 w2 with
              | none => none
              | some cs => some (text1 :: text2 :: cs)

/-- The results of successive calls `get_next_line(fd)` for the descriptors of a
list, in order, with the final value of the static `text` and the final world. -/
def calls_on (BUFFER_SIZE : Int) :
    List Int → Option (List Byte) → World →
      Option (List (Option (List Byte)) × Option (List Byte) × World)
  | [], text, w => some ([], text, w)
  | fd :: fds, text, w =>
      match get_next_line BUFFER_SIZE fd text w with
      | none => none
      | some (line, text1, w1) =>
          match calls_on BUFFER_SIZE fds text1 w1 with
          | none => none
          | some (ls, t, w2) => some (line :: ls, t, w2)

/-! ## The specification's view of a stream -/

/-- The bytes up to and including the first newline, or all bytes when there is
no newline. -/
def first_line : List Byte → List Byte
  | [] => []
  | b :: bs => if b = 10 then [b] else b :: first_line bs

/-- The bytes strictly after the first newline (none when there is no newline). -/
def after_line : List Byte → List Byte
  | [] => []
  | b :: bs => if b = 10 then bs else after_line bs

/-- The stream cut after each newline: every piece but possibly the last ends
with a newline, and a final piece without newline holds the bytes up to
end-of-stream. -/
def pieces : List Byte → List (List Byte)
  | [] => []
  | b :: bs =>
      if b = 10 then [b] :: pieces bs
      else
        match pieces bs with
        | [] => [[b]]
        | p :: ps => (b :: p) :: ps

/-- The expected results of `n` successive calls on a stream: its pieces in
order, then the end-marker. -/
def expected (n : Nat) (s : List Byte) : List (Option (List Byte)) :=
  ((pieces s).map some ++ List.replicate n none).take n

/-! ## Allocation outcome and write traces -/

/-- The next allocation succeeds. -/
def AllocOk (w : World) : Prop :=
  w.allocs.head? ≠ some false

instance (w : World) : Decidable (AllocOk w) :=
  inferInstanceAs (Decidable (w.allocs.head? ≠ some false))

/-- The writes `dst[j] = s[i]` of a loop `while (s[i]) dst[j++] = s[i++]`, in
order, as pairs of index written and byte stored; the second argument is the
value of `j` when the loop starts. -/
def copy_writes : List Byte → Nat → List (Nat × Byte)
  | [], _ => []
  | b :: bs, j => if b = 0 then [] else (j, b) :: copy_writes bs (j + 1)

/-- The writes `line[i] = text[i]` of the second loop of `copy_line`. -/
def line_writes : List Byte → Nat → List (Nat × Byte)
  | [], _ => []
  | b :: bs, i => if b = 0 ∨ b = 10 then [] else (i, b) :: line_writes bs (i + 1)

/-- All writes of `copy_line` into `line`: the loop, then the newline if
`text[i]` is one, then the terminator. After the loop `i` is the number of its
iterations, `line_len t`. -/
def copy_line_writes (t : List Byte) : List (Nat × Byte) :=
  if t.getD (line_len t) 0 = 10 then
    line_writes t 0 ++ [(line_len t, 10), (line_len t + 1, 0)]
  else line_writes t 0 ++ [(line_len t, 0)]

/-- All writes of `get_remainder` into `rest`: the loop started after the
newline with `j = 0`, then the terminator at the final `j`. -/
def get_remainder_writes (t : List Byte) : List (Nat × Byte) :=
  copy_writes (t.drop (line_len t + 1)) 0 ++
    [((copy_writes (t.drop (line_len t + 1)) 0).length, 0)]

/-- All writes of `ft_strjoin` into `new`: the loop over `s1` from index 0, the
loop over `s2` from the index reached, then the terminator. -/
def strjoin_writes (s1 s2 : Option (List Byte)) : List (Nat × Byte) :=
  copy_writes (s1.getD []) 0 ++
    copy_writes (s2.getD []) (copy_writes (s1.getD []) 0).length ++
    [((copy_writes (s1.getD []) 0).length +
        (copy_writes (s2.getD []) (copy_writes (s1.getD []) 0).length).length, 0)]

/-! ## String primitives -/

theorem copy_str_id {s : List Byte} (h : 0 ∉ s) : copy_str s = s := by
  induction s with
  | nil => rfl
  | cons b bs ih =>
      have hb : b ≠ 0 := fun e => h (by simp [e])
      have hbs : 0 ∉ bs := fun e => h (List.mem_cons_of_mem _ e)
      simp [copy_str, hb, ih hbs]

theorem strlen_loop_id {s : List Byte} (h : 0 ∉ s) : strlen_loop s = s.length := by
  induction s with
  | nil => rfl
  | cons b bs ih =>
      have hb : b ≠ 0 := fun e => h (by simp [e])
      have hbs : 0 ∉ bs := fun e => h (List.mem_cons_of_mem _ e)
      simp [strlen_loop, hb, ih hbs]

theorem strchr_loop_none {s : List Byte} (h : 0 ∉ s) (i : Nat) :
    strchr_loop 10 s i = none ↔ 10 ∉ s := by
  induction s generalizing i with
  | nil => simp [strchr_loop]
  | cons b bs ih =>
      have hb : b ≠ 0 := fun e => h (by simp [e])
      have hbs : 0 ∉ bs := fun e => h (List.mem_cons_of_mem _ e)
      by_cases hn : b = 10
      · simp [strchr_loop, hn]
      · have hn2 : ¬ (10 = b) := fun e => hn e.symm
        simp [strchr_loop, hb, hn, hn2, ih hbs]

theorem ft_strchr_none {t : List Byte} (h : 0 ∉ t) :
    ft_strchr (some t) 10 = none ↔ 10 ∉ t := by
  simp [ft_strchr, strchr_loop_none h]

theorem line_shape {t : List Byte} (h : 0 ∉ t) :
    (if t.getD (line_len t) 0 = 10 then t.take (line_len t) ++ [10]
      else t.take (line_len t)) = first_line t := by
  induction t with
  | nil => simp [line_len, first_line]
  | cons b bs ih =>
      have hb : b ≠ 0 := fun e => h (by simp [e])
      have hbs : 0 ∉ bs := fun e => h (List.mem_cons_of_mem _ e)
      by_cases hn : b = 10
      · simp [line_len, first_line, hn]
      · have := ih hbs
        simp only [line_len, first_line, hb, hn, or_self, if_false, List.getD_cons_succ,
          List.take_succ_cons]
        rw [← this]
        split <;> simp

theorem rest_absent {t : List Byte} (h : 0 ∉ t) :
    t.getD (line_len t) 0 = 0 ↔ 10 ∉ t := by
  induction t with
  | nil => simp [line_len]
  | cons b bs ih =>
      have hb : b ≠ 0 := fun e => h (by simp [e])
      have hbs : 0 ∉ bs := fun e => h (List.mem_cons_of_mem _ e)
      by_cases hn : b = 10
      · simp [line_len, hn]
      · have hn2 : ¬ (10 = b) := fun e => hn e.symm
        have ih2 := ih hbs
        simp only [line_len, hb, hn, or_self, if_false, List.getD_cons_succ]
        rw [ih2]
        simp [hn2]

theorem rest_shape (t : List Byte) (h : 0 ∉ t) :
    t.drop (line_len t + 1) = after_line t := by
  induction t with
  | nil => simp [line_len, after_line]
  | cons b bs ih =>
      have hb : b ≠ 0 := fun e => h (by simp [e])
      have hbs : 0 ∉ bs := fun e => h (List.mem_cons_of_mem _ e)
      by_cases hn : b = 10
      · simp [line_len, after_line, hn]
      · simp [line_len, after_line, hb, hn, ih hbs]

theorem after_line_subset (t : List Byte) : ∀ x ∈ after_line t, x ∈ t := by
  induction t with
  | nil => simp [after_line]
  | cons b bs ih =>
      intro x hx
      by_cases hn : b = 10
      · simp [after_line, hn] at hx
        simp [hx]
      · simp [after_line, hn] at hx
        exact List.mem_cons_of_mem _ (ih x hx)

theorem after_line_length_le (t : List Byte) : (after_line t).length ≤ t.length := by
  induction t with
  | nil => simp [after_line]
  | cons b bs ih =>
      by_cases hn : b = 10
      · simp [after_line, hn]
      · simp [after_line, hn]
        omega

theorem after_line_lt {t : List Byte} (h : t ≠ []) : (after_line t).length < t.length := by
  cases t with
  | nil => exact absurd rfl h
  | cons b bs =>
      by_cases hn : b = 10
      · simp [after_line, hn]
      · have := after_line_length_le bs
        simp [after_line, hn]
        omega

theorem after_line_nil_of_not_mem {t : List Byte} (h : 10 ∉ t) : after_line t = [] := by
  induction t with
  | nil => rfl
  | cons b bs ih =>
      have hb : b ≠ 10 := fun e => h (by simp [e])
      have hbs : 10 ∉ bs := fun e => h (List.mem_cons_of_mem _ e)
      simp [after_line, hb, ih hbs]

theorem first_line_append {t : List Byte} (u : List Byte) (h : 10 ∈ t) :
    first_line (t ++ u) = first_line t := by
  induction t with
  | nil => simp at h
  | cons b bs ih =>
      by_cases hn : b = 10
      · simp [first_line, hn]
      · have hbs : 10 ∈ bs := by
          rcases List.mem_cons.mp h with e | e
          · exact absurd e.symm hn
          · exact e
        simp [first_line, hn, ih hbs]

theorem after_line_append {t : List Byte} (u : List Byte) (h : 10 ∈ t) :
    after_line (t ++ u) = after_line t ++ u := by
  induction t with
  | nil => simp at h
  | cons b bs ih =>
      by_cases hn : b = 10
      · simp [after_line, hn]
      · have hbs : 10 ∈ bs := by
          rcases List.mem_cons.mp h with e | e
          · exact absurd e.symm hn
          · exact e
        simp [after_line, hn, ih hbs]

theorem after_line_append_of_not_mem {t : List Byte} (u : List Byte) (h : 10 ∉ t) :
    after_line (t ++ u) = after_line u := by
  induction t with
  | nil => rfl
  | cons b bs ih =>
      have hb : b ≠ 10 := fun e => h (by simp [e])
      have hbs : 10 ∉ bs := fun e => h (List.mem_cons_of_mem _ e)
      simp [after_line, hb, ih hbs]

theorem first_line_ne_nil {t : List Byte} (h : t ≠ []) : first_line t ≠ [] := by
  cases t with
  | nil => exact absurd rfl h
  | cons b bs =>
      by_cases hn : b = 10 <;> simp [first_line, hn]

theorem first_after (t : List Byte) : first_line t ++ after_line t = t := by
  induction t with
  | nil => rfl
  | cons b bs ih =>
      by_cases hn : b = 10
      · simp [first_line, after_line, hn]
      · simp [first_line, after_line, hn, ih]

theorem pieces_unfold {t : List Byte} (h : t ≠ []) :
    pieces t = first_line t :: pieces (after_line t) := by
  induction t with
  | nil => exact absurd rfl h
  | cons b bs ih =>
      by_cases hn : b = 10
      · simp [pieces, first_line, after_line, hn]
      · by_cases hbs : bs = []
        · subst hbs
          simp [pieces, first_line, after_line, hn]
        · simp [pieces, first_line, after_line, hn, ih hbs]

theorem pieces_join (t : List Byte) : (pieces t).flatten = t := by
  induction t with
  | nil => rfl
  | cons b bs ih =>
      by_cases hn : b = 10
      · simp [pieces, hn, ih]
      · cases hp : pieces bs with
        | nil =>
            rw [hp] at ih
            simp at ih
            simp [pieces, hn, hp, ← ih]
        | cons p ps =>
            rw [hp] at ih
            simp at ih
            simp [pieces, hn, hp, ih]

/-! ## The primitives in a world where nothing fails -/

theorem malloc_quiet {w : World} (h : Quiet w) (n : Nat) :
    ∃ w1, malloc n w = (true, w1) ∧ Quiet w1 ∧ w1.files = w.files ∧
      w1.script = w.script ∧ w1.nread = w.nread := by
  obtain ⟨hs, ha⟩ := h
  unfold malloc
  cases hal : w.allocs with
  | nil =>
      refine ⟨_, rfl, ⟨hs, ?_⟩, rfl, rfl, rfl⟩
      intro b hb
      exact absurd hb (List.not_mem_nil b)
  | cons ok rest =>
      have hok : ok = true := ha ok (by simp [hal])
      subst hok
      refine ⟨_, rfl, ⟨hs, ?_⟩, rfl, rfl, rfl⟩
      intro b hb
      exact ha b (by simp [hal, show b ∈ rest from hb])

theorem read_quiet {w : World} (h : Quiet w) (fd : Int) {count : Nat} (hc : 1 ≤ count) :
    ∃ n w1, 1 ≤ n ∧ n ≤ count ∧
      read fd count w = (((((w.files fd).take n).length : Nat) : Int), (w.files fd).take n, w1) ∧
      Quiet w1 ∧ w1.files fd = (w.files fd).drop n ∧
      (∀ d, d ≠ fd → w1.files d = w.files d) ∧ w1.nread = w.nread + 1 := by
  obtain ⟨hs, ha⟩ := h
  unfold read
  cases hsc : w.script with
  | nil =>
      refine ⟨count, _, hc, le_refl _, rfl, ⟨?_, ha⟩, ?_, ?_, rfl⟩
      · intro ev hev
        simp [hsc] at hev
      · simp
      · intro d hd
        simp [Function.update, hd]
  | cons ev evs =>
      have hev : ReadEv.ok ev = true := hs ev (by simp [hsc])
      cases ev with
      | fail => simp [ReadEv.ok] at hev
      | short k =>
          have hk : 1 ≤ k := by simpa [ReadEv.ok] using hev
          refine ⟨min k count, _, le_min hk hc, min_le_right _ _, rfl, ⟨?_, ha⟩, ?_, ?_, rfl⟩
          · intro e he
            exact hs e (by simp [hsc, show e ∈ evs from he])
          · simp
          · intro d hd
            simp [Function.update, hd]

theorem strjoin_quiet {w : World} (h : Quiet w) {t c : List Byte} (ht : 0 ∉ t) (hc : 0 ∉ c) :
    ∃ w1, ft_strjoin (some t) (some c) w = (some (t ++ c), w1) ∧ Quiet w1 ∧
      w1.files = w.files ∧ w1.script = w.script ∧ w1.nread = w.nread := by
  obtain ⟨w1, hm, hq, hf, hs, hn⟩ := malloc_quiet h (ft_strlen (some t) + ft_strlen (some c) + 1)
  refine ⟨w1, ?_, hq, hf, hs, hn⟩
  simp [ft_strjoin, hm, copy_str_id ht, copy_str_id hc]

theorem strjoin_null_quiet {w : World} (h : Quiet w) {c : List Byte} (hc : 0 ∉ c) :
    ∃ w1, ft_strjoin none (some c) w = (some c, w1) ∧ Quiet w1 ∧
      w1.files = w.files ∧ w1.script = w.script ∧ w1.nread = w.nread := by
  obtain ⟨w1, hm, hq, hf, hs, hn⟩ := malloc_quiet h (ft_strlen none + ft_strlen (some c) + 1)
  refine ⟨w1, ?_, hq, hf, hs, hn⟩
  simp [ft_strjoin, hm, copy_str_id hc]

theorem copy_line_quiet {w : World} (h : Quiet w) {t : List Byte} (ht : 0 ∉ t) :
    ∃ w1, copy_line (some t) w = (if t = [] then none else some (first_line t), w1) ∧
      Quiet w1 ∧ w1.files = w.files ∧ w1.script = w.script ∧ w1.nread = w.nread := by
  cases t with
  | nil => exact ⟨w, by simp [copy_line], h, rfl, rfl, rfl⟩
  | cons b bs =>
      have hb : b ≠ 0 := fun e => ht (by simp [e])
      obtain ⟨w1, hm, hq, hf, hs, hn⟩ := malloc_quiet h (line_len (b :: bs) + 2)
      refine ⟨w1, ?_, hq, hf, hs, hn⟩
      have hsh := line_shape ht
      simp only [copy_line, List.getD_cons_zero, hb, if_false, hm]
      rw [← hsh]
      split <;> simp

theorem get_remainder_quiet {w : World} (h : Quiet w) {t : List Byte} (ht : 0 ∉ t) :
    ∃ w1, get_remainder t w = (if 10 ∈ t then some (after_line t) else none, w1) ∧
      Quiet w1 ∧ w1.files = w.files ∧ w1.script = w.script ∧ w1.nread = w.nread := by
  by_cases hnl : 10 ∈ t
  · have h0 : ¬ (t.getD (line_len t) 0 = 0) := fun e => (rest_absent ht).mp e hnl
    obtain ⟨w1, hm, hq, hf, hs, hn⟩ :=
      malloc_quiet h (ft_strlen (some t) - line_len t)
    refine ⟨w1, ?_, hq, hf, hs, hn⟩
    have h0r : 0 ∉ after_line t := fun e => ht (after_line_subset t 0 e)
    simp only [get_remainder, h0, if_false, hm, hnl, if_true, rest_shape t ht, copy_str_id h0r]
  · have h0 : t.getD (line_len t) 0 = 0 := (rest_absent ht).mpr hnl
    exact ⟨w, by simp only [get_remainder, h0, if_true, hnl, if_false], h, rfl, rfl, rfl⟩

/-! ## The chunk-reading loop in a world where nothing fails -/

theorem read_loop_quiet (BS fd : Int) (hBS : 0 < BS) :
    ∀ (fuel : Nat) (bytes : Int) (t : List Byte) (w : World),
      Quiet w → 0 ∉ t → 0 ∉ w.files fd →
      (0 < bytes → (w.files fd).length < fuel) → (bytes ≤ 0 → w.files fd = []) →
      (after_line t).length < BS.toNat →
      ∃ T w1, read_loop BS fd fuel bytes (some t) w = some (some T, w1) ∧ Quiet w1 ∧
        0 ∉ T ∧ T ++ w1.files fd = t ++ w.files fd ∧ (10 ∈ T ∨ w1.files fd = []) ∧
        (after_line T).length < BS.toNat ∧ (∀ d, d ≠ fd → w1.files d = w.files d) := by
  intro fuel
  induction fuel with
  | zero =>
      intro bytes t w hq ht _ hfuel hempty hcarry
      have hb : ¬ (0 < bytes) := fun hpos => by
        have := hfuel hpos
        omega
      refine ⟨t, w, ?_, hq, ht, rfl, Or.inr (hempty (not_lt.mp hb)), hcarry, fun _ _ => rfl⟩
      simp [read_loop, hb]
  | succ fuel ih =>
      intro bytes t w hq ht hf hfuel hempty hcarry
      by_cases hcond : 0 < bytes ∧ 10 ∉ t
      · obtain ⟨hpos, hnl⟩ := hcond
        have hcnt : 1 ≤ BS.toNat := by omega
        obtain ⟨n, w1, hn1, hn2, hrd, hq1, hf1, hfr1, _⟩ := read_quiet hq fd hcnt
        have hchunk0 : 0 ∉ (w.files fd).take n := fun e => hf (List.mem_of_mem_take e)
        obtain ⟨w2, hj, hq2, hf2, _, _⟩ := strjoin_quiet hq1 ht hchunk0
        have hf2fd : w2.files fd = (w.files fd).drop n := by rw [hf2, hf1]
        have h0 : 0 ∉ t ++ (w.files fd).take n := by
          intro e
          rcases List.mem_append.mp e with e | e
          · exact ht e
          · exact hchunk0 e
        have hcarry2 : (after_line (t ++ (w.files fd).take n)).length < BS.toNat := by
          rw [after_line_append_of_not_mem _ hnl]
          by_cases hce : (w.files fd).take n = []
          · rw [hce]
            simp [after_line]
            omega
          · have h1 := after_line_lt hce
            have h2 : ((w.files fd).take n).length ≤ n := List.length_take_le _ _
            omega
        obtain ⟨T, w3, hrl, hq3, hT0, hTcat, hTnl, hTcarry, hfr3⟩ :=
          ih (((w.files fd).take n).length : Nat) (t ++ (w.files fd).take n) w2 hq2 h0
            (by rw [hf2fd]; exact fun e => hf (List.mem_of_mem_drop e))
            (by
              intro hp
              rw [hf2fd]
              have hp2 : 0 < ((w.files fd).take n).length := by exact_mod_cast hp
              have h3 := hfuel hpos
              simp only [List.length_take, List.length_drop] at hp2 ⊢
              omega)
            (by
              intro hp
              rw [hf2fd]
              have hp2 : ((w.files fd).take n).length = 0 := by
                have : (((w.files fd).take n).length : Int) ≤ 0 := hp
                omega
              simp only [List.length_take] at hp2
              apply List.eq_nil_of_length_eq_zero
              simp only [List.length_drop]
              omega)
            hcarry2
        refine ⟨T, w3, ?_, hq3, hT0, ?_, hTnl, hTcarry, ?_⟩
        · have hc : bytes > 0 ∧ (False ∨ ft_strchr (some t) 10 = none) :=
            ⟨hpos, Or.inr ((ft_strchr_none ht).mpr hnl)⟩
          have hne : ¬ ((((w.files fd).take n).length : Nat) : Int) = -1 := by omega
          simp only [read_loop, reduceCtorEq, hc, if_true, hrd, hne, if_false, hj]
          exact hrl
        · rw [hTcat, hf2fd, List.append_assoc, List.take_append_drop]
        · intro d hd
          rw [hfr3 d hd, hf2, hfr1 d hd]
      · have hc : ¬ (bytes > 0 ∧ (False ∨ ft_strchr (some t) 10 = none)) := by
          rintro ⟨hp, hx | hx⟩
          · exact hx
          · exact hcond ⟨hp, (ft_strchr_none ht).mp hx⟩
        refine ⟨t, w, ?_, hq, ht, rfl, ?_, hcarry, fun _ _ => rfl⟩
        · simp only [read_loop, reduceCtorEq, hc, if_false]
        · by_cases hp : 0 < bytes
          · left
            by_contra hx
            exact hcond ⟨hp, hx⟩
          · right
            exact hempty (not_lt.mp hp)

theorem read_file_quiet (BS fd : Int) (hBS : 0 < BS) (text : Option (List Byte)) (w : World)
    (hq : Quiet w) (ht : 0 ∉ text.getD []) (hf : 0 ∉ w.files fd)
    (hcarry : (text.getD []).length < BS.toNat) :
    ∃ T w1, read_file BS fd text w = some (some T, w1) ∧ Quiet w1 ∧
      0 ∉ T ∧ T ++ w1.files fd = text.getD [] ++ w.files fd ∧ (10 ∈ T ∨ w1.files fd = []) ∧
      (after_line T).length < BS.toNat ∧ (∀ d, d ≠ fd → w1.files d = w.files d) := by
  obtain ⟨w0, hm, hq0, hf0, _, _⟩ := malloc_quiet hq (BS + 1).toNat
  have hf0fd : w0.files fd = w.files fd := by rw [hf0]
  cases text with
  | some t =>
      simp only [Option.getD_some] at ht hcarry ⊢
      have hc2 : (after_line t).length < BS.toNat :=
        lt_of_le_of_lt (after_line_length_le t) hcarry
      obtain ⟨T, w1, hrl, hq1, hT0, hTcat, hTnl, hTc, hfr⟩ :=
        read_loop_quiet BS fd hBS ((w0.files fd).length + 1) 1 t w0 hq0 ht
          (by rw [hf0fd]; exact hf) (fun _ => Nat.lt_succ_self _)
          (fun h => absurd h (by decide)) hc2
      refine ⟨T, w1, ?_, hq1, hT0, ?_, hTnl, hTc, ?_⟩
      · simp only [read_file, hm]
        exact hrl
      · rw [hTcat, hf0fd]
      · intro d hd
        rw [hfr d hd, hf0]
  | none =>
      simp only [Option.getD_none, List.nil_append] at ht hcarry ⊢
      have hcnt : 1 ≤ BS.toNat := by omega
      obtain ⟨n, w1, hn1, hn2, hrd, hq1, hf1, hfr1, _⟩ := read_quiet hq0 fd hcnt
      have hchunk0 : 0 ∉ (w0.files fd).take n := fun e =>
        hf (by rw [← hf0fd]; exact List.mem_of_mem_take e)
      obtain ⟨w2, hj, hq2, hf2, _, _⟩ := strjoin_null_quiet hq1 hchunk0
      have hf2fd : w2.files fd = (w0.files fd).drop n := by rw [hf2, hf1]
      have hc2 : (after_line ((w0.files fd).take n)).length < BS.toNat := by
        by_cases hce : (w0.files fd).take n = []
        · rw [hce]
          simp [after_line]
          omega
        · have h1 := after_line_lt hce
          have h2 : ((w0.files fd).take n).length ≤ n := List.length_take_le _ _
          omega
      obtain ⟨T, w3, hrl, hq3, hT0, hTcat, hTnl, hTc, hfr3⟩ :=
        read_loop_quiet BS fd hBS (w0.files fd).length
          (((w0.files fd).take n).length : Nat) ((w0.files fd).take n) w2 hq2 hchunk0
          (by rw [hf2fd]; exact fun e => hf (by rw [← hf0fd]; exact List.mem_of_mem_drop e))
          (by
            intro hp
            rw [hf2fd]
            have hp2 : 0 < ((w0.files fd).take n).length := by exact_mod_cast hp
            simp only [List.length_take, List.length_drop] at hp2 ⊢
            omega)
          (by
            intro hp
            rw [hf2fd]
            have hp2 : ((w0.files fd).take n).length = 0 := by
              have : (((w0.files fd).take n).length : Int) ≤ 0 := hp
              omega
            simp only [List.length_take] at hp2
            apply List.eq_nil_of_length_eq_zero
            simp only [List.length_drop]
            omega)
          hc2
      refine ⟨T, w3, ?_, hq3, hT0, ?_, hTnl, hTc, ?_⟩
      · have hne : ¬ ((((w0.files fd).take n).length : Nat) : Int) = -1 := by omega
        simp only [read_file, hm, read_loop, gt_iff_lt, Int.one_pos, true_or, and_self, if_true,
          hrd, hne, if_false, hj]
        exact hrl
      · rw [hTcat, hf2fd, List.take_append_drop, hf0fd]
      · intro d hd
        rw [hfr3 d hd, hf2, hfr1 d hd, hf0]

/-- One call in a world where nothing fails: the line returned is the first piece
of the bytes still to deliver (carryover followed by unread bytes), and the new
carryover followed by the unread bytes is what follows that piece. -/
theorem gnl_quiet (BS fd : Int) (hBS : 0 < BS) (hfd : 0 ≤ fd) (text : Option (List Byte))
    (w : World) (hq : Quiet w) (ht : 0 ∉ text.getD []) (hf : 0 ∉ w.files fd)
    (hcarry : (text.getD []).length < BS.toNat) :
    ∃ text1 w1,
      get_next_line BS fd text w =
        some (if text.getD [] ++ w.files fd = [] then none
              else some (first_line (text.getD [] ++ w.files fd)), text1, w1) ∧
      Quiet w1 ∧ 0 ∉ text1.getD [] ∧ 0 ∉ w1.files fd ∧
      (text1.getD []).length < BS.toNat ∧
      text1.getD [] ++ w1.files fd = after_line (text.getD [] ++ w.files fd) ∧
      (text1 = none ↔ 10 ∉ text.getD [] ++ w.files fd) ∧
      (∀ d, d ≠ fd → w1.files d = w.files d) := by
  obtain ⟨T, w1, hrf, hq1, hT0, hTcat, hTnl, hTc, hfr⟩ :=
    read_file_quiet BS fd hBS text w hq ht hf hcarry
  obtain ⟨w2, hcl, hq2, hf2, _, _⟩ := copy_line_quiet hq1 hT0
  obtain ⟨w3, hgr, hq3, hf3, _, _⟩ := get_remainder_quiet hq2 hT0
  have hguard : ¬ (fd < 0 ∨ BS ≤ 0) := by omega
  have hfiles3 : w3.files = w1.files := by rw [hf3, hf2]
  have hR0 : 0 ∉ text.getD [] ++ w.files fd := by
    intro e
    rcases List.mem_append.mp e with e | e
    · exact ht e
    · exact hf e
  have hF0 : 0 ∉ w1.files fd := fun e => hR0 (by rw [← hTcat]; exact List.mem_append_right _ e)
  have hmem : 10 ∈ T ↔ 10 ∈ text.getD [] ++ w.files fd := by
    constructor
    · intro h
      rw [← hTcat]
      exact List.mem_append_left _ h
    · intro h
      rcases hTnl with h1 | h1
      · exact h1
      · rw [h1, List.append_nil] at hTcat
        rw [hTcat]
        exact h
  have hfirst : first_line T = first_line (text.getD [] ++ w.files fd) := by
    rcases hTnl with h1 | h1
    · rw [← hTcat, first_line_append _ h1]
    · rw [h1, List.append_nil] at hTcat
      rw [hTcat]
  have hnil : T = [] ↔ text.getD [] ++ w.files fd = [] := by
    constructor
    · intro h
      rcases hTnl with h1 | h1
      · rw [h] at h1
        simp at h1
      · rw [← hTcat, h, h1]
        rfl
    · intro h
      rw [← hTcat] at h
      exact (List.append_eq_nil.mp h).1
  refine ⟨if 10 ∈ T then some (after_line T) else none, w3, ?_, hq3, ?_, ?_, ?_, ?_, ?_, ?_⟩
  · simp only [get_next_line, hguard, if_false, hrf, hcl, hgr, hfirst]
    by_cases hn : T = []
    · simp [hn, hnil.mp hn]
    · have hn2 : ¬ (text.getD [] ++ w.files fd = []) := fun e => hn (hnil.mpr e)
      rw [if_neg hn, if_neg hn2]
  · by_cases h : 10 ∈ T
    · simp only [h, if_true, Option.getD_some]
      exact fun e => hT0 (after_line_subset T 0 e)
    · simp [h]
  · rw [hfiles3]
    exact hF0
  · by_cases h : 10 ∈ T
    · simp only [h, if_true, Option.getD_some]
      exact hTc
    · simp only [h, if_false, Option.getD_none, List.length_nil]
      omega
  · rw [hfiles3, ← hTcat]
    by_cases h : 10 ∈ T
    · simp only [h, if_true, Option.getD_some]
      rw [after_line_append _ h]
    · have h1 : w1.files fd = [] := by
        rcases hTnl with h2 | h2
        · exact absurd h2 h
        · exact h2
      simp [h, h1, after_line_nil_of_not_mem h]
  · rw [← hmem]
    by_cases h : 10 ∈ T <;> simp [h]
  · intro d hd
    rw [hfiles3, hfr d hd]

/-! ## Sequences of calls in a world where nothing fails -/

theorem take_replicate_succ {α : Type} (l : List α) (x : α) (n : Nat) :
    (l ++ List.replicate (n + 1) x).take n = (l ++ List.replicate n x).take n := by
  rw [List.replicate_succ', ← List.append_assoc]
  apply List.take_append_of_le_length
  simp

theorem expected_succ (n : Nat) (s : List Byte) :
    expected (n + 1) s =
      (if s = [] then none else some (first_line s)) :: expected n (after_line s) := by
  by_cases hs : s = []
  · subst hs
    simp [expected, pieces, after_line, List.replicate_succ]
  · rw [if_neg hs]
    unfold expected
    rw [pieces_unfold hs, List.map_cons, List.cons_append, List.take_succ_cons,
      take_replicate_succ]

theorem calls_quiet (BS fd : Int) (hBS : 0 < BS) (hfd : 0 ≤ fd) :
    ∀ (n : Nat) (text : Option (List Byte)) (w : World),
      Quiet w → 0 ∉ text.getD [] → 0 ∉ w.files fd → (text.getD []).length < BS.toNat →
      ∃ t w1, calls BS fd n text w = some (expected n (text.getD [] ++ w.files fd), t, w1) := by
  intro n
  induction n with
  | zero =>
      intro text w _ _ _ _
      exact ⟨text, w, by simp [calls, expected]⟩
  | succ n ih =>
      intro text w hq ht hf hc
      obtain ⟨text1, w1, hg, hq1, ht1, hf1, hc1, hcat, _, _⟩ :=
        gnl_quiet BS fd hBS hfd text w hq ht hf hc
      obtain ⟨t, w2, hcalls⟩ := ih text1 w1 hq1 ht1 hf1 hc1
      refine ⟨t, w2, ?_⟩
      simp only [calls, hg, hcalls, hcat, expected_succ]

theorem read_all_quiet (BS fd : Int) (hBS : 0 < BS) (hfd : 0 ≤ fd) :
    ∀ (n : Nat) (text : Option (List Byte)) (w : World),
      Quiet w → 0 ∉ text.getD [] → 0 ∉ w.files fd → (text.getD []).length < BS.toNat →
      (text.getD [] ++ w.files fd).length < n →
      read_all BS fd n text w = some (pieces (text.getD [] ++ w.files fd)) := by
  intro n
  induction n with
  | zero =>
      intro text w _ _ _ _ hn
      omega
  | succ n ih =>
      intro text w hq ht hf hc hn
      obtain ⟨text1, w1, hg, hq1, ht1, hf1, hc1, hcat, _, _⟩ :=
        gnl_quiet BS fd hBS hfd text w hq ht hf hc
      by_cases hR : text.getD [] ++ w.files fd = []
      · rw [if_pos hR] at hg
        simp only [read_all, hg, hR, pieces]
      · rw [if_neg hR] at hg
        have hlt := after_line_lt hR
        have hrec := ih text1 w1 hq1 ht1 hf1 hc1 (by rw [hcat]; omega)
        simp only [read_all, hg, hrec, hcat, pieces_unfold hR]

/-! ## Interleaved calls on two descriptors -/

theorem interleaved_chunk_one (fdA fdB : Int) (hA : 0 ≤ fdA) (hB : 0 ≤ fdB) (hne : fdA ≠ fdB) :
    ∀ (n : Nat) (text : Option (List Byte)) (w : World),
      Quiet w → text.getD [] = [] → 0 ∉ w.files fdA → 0 ∉ w.files fdB →
      ∃ t, interleaved 1 fdA fdB n text w =
        some (expected n (w.files fdA), expected n (w.files fdB), t) := by
  intro n
  induction n with
  | zero =>
      intro text w _ _ _ _
      exact ⟨text, by simp [interleaved, expected]⟩
  | succ n ih =>
      intro text w hq ht hfA hfB
      obtain ⟨text1, w1, hg1, hq1, ht1, hfA1, hc1, hcat1, _, hfr1⟩ :=
        gnl_quiet 1 fdA (by decide) hA text w hq (by rw [ht]; simp) hfA (by rw [ht]; decide)
      have hcarry1 : text1.getD [] = [] := by
        apply List.eq_nil_of_length_eq_zero
        have : (1 : Int).toNat = 1 := rfl
        omega
      have hB1 : w1.files fdB = w.files fdB := hfr1 fdB (fun e => hne e.symm)
      obtain ⟨text2, w2, hg2, hq2, ht2, hfB2, hc2, hcat2, _, hfr2⟩ :=
        gnl_quiet 1 fdB (by decide) hB text1 w1 hq1 ht1 (by rw [hB1]; exact hfB) hc1
      have hcarry2 : text2.getD [] = [] := by
        apply List.eq_nil_of_length_eq_zero
        have : (1 : Int).toNat = 1 := rfl
        omega
      have hA2 : w2.files fdA = w1.files fdA := hfr2 fdA hne
      rw [ht, List.nil_append] at hg1 hcat1
      rw [hcarry1, List.nil_append] at hcat1 hg2 hcat2
      rw [hcarry2, List.nil_append] at hcat2
      rw [hB1] at hg2 hcat2
      obtain ⟨t, hrec⟩ := ih text2 w2 hq2 hcarry2
        (by rw [hA2]; exact hfA1) hfB2
      refine ⟨t, ?_⟩
      simp only [interleaved, hg1, hg2, hrec, hA2, hcat1, hcat2, expected_succ]

/-! ## The end of the stream -/

theorem strjoin_some_quiet {w : World} (h : Quiet w) (text : Option (List Byte))
    (c : List Byte) :
    ∃ r w1, ft_strjoin text (some c) w = (some r, w1) ∧ Quiet w1 ∧ w1.files = w.files := by
  obtain ⟨w1, hm, hq, hf, _, _⟩ := malloc_quiet h (ft_strlen text + ft_strlen (some c) + 1)
  cases text with
  | none => exact ⟨copy_str c, w1, by simp [ft_strjoin, hm], hq, hf⟩
  | some a => exact ⟨copy_str a ++ copy_str c, w1, by simp [ft_strjoin, hm], hq, hf⟩

theorem read_loop_exit (BS fd : Int) (hBS : 0 < BS) :
    ∀ (fuel : Nat) (bytes : Int) (text : Option (List Byte)) (w : World)
      (res : Option (List Byte)) (w1 : World),
      Quiet w → read_loop BS fd fuel bytes text w = some (res, w1) →
      (0 < bytes ∨ w.files fd = []) →
      Quiet w1 ∧ (res = none → text = none ∧ bytes ≤ 0) ∧
        (ft_strchr res 10 = none → w1.files fd = []) := by
  intro fuel
  induction fuel with
  | zero =>
      intro bytes text w res w1 hq h hb
      by_cases hc : bytes > 0 ∧ (text = none ∨ ft_strchr text 10 = none)
      · simp [read_loop, hc] at h
      · simp only [read_loop, hc, if_false, Option.some.injEq, Prod.mk.injEq] at h
        obtain ⟨h1, h2⟩ := h
        subst h1 h2
        refine ⟨hq, ?_, ?_⟩
        · intro e
          refine ⟨e, ?_⟩
          by_contra hx
          exact hc ⟨by omega, Or.inl e⟩
        · intro e
          rcases hb with hb | hb
          · exact absurd ⟨hb, Or.inr e⟩ hc
          · exact hb
  | succ fuel ih =>
      intro bytes text w res w1 hq h hb
      by_cases hc : bytes > 0 ∧ (text = none ∨ ft_strchr text 10 = none)
      · have hcnt : 1 ≤ BS.toNat := by omega
        obtain ⟨n, wr, hn1, _, hrd, hqr, hfr, _, _⟩ := read_quiet hq fd hcnt
        obtain ⟨r, wj, hj, hqj, hfj⟩ := strjoin_some_quiet hqr text ((w.files fd).take n)
        have hne : ¬ ((((w.files fd).take n).length : Nat) : Int) = -1 := by omega
        simp only [read_loop, hc, if_true, hrd, hne, if_false, hj] at h
        have hrec := ih _ _ _ _ _ hqj h (by
          by_cases hl : 0 < ((w.files fd).take n).length
          · left
            exact_mod_cast hl
          · right
            rw [hfj, hfr]
            simp only [List.length_take] at hl
            apply List.eq_nil_of_length_eq_zero
            simp only [List.length_drop]
            omega)
        refine ⟨hrec.1, ?_, hrec.2.2⟩
        intro e
        exact absurd (hrec.2.1 e).1 (by simp)
      · simp only [read_loop, hc, if_false, Option.some.injEq, Prod.mk.injEq] at h
        obtain ⟨h1, h2⟩ := h
        subst h1 h2
        refine ⟨hq, ?_, ?_⟩
        · intro e
          refine ⟨e, ?_⟩
          by_contra hx
          exact hc ⟨by omega, Or.inl e⟩
        · intro e
          rcases hb with hb | hb
          · exact absurd ⟨hb, Or.inr e⟩ hc
          · exact hb

theorem strchr_none_of_head {t : List Byte} (h : t.getD 0 0 = 0) :
    ft_strchr (some t) 10 = none := by
  cases t with
  | nil => simp [ft_strchr, strchr_loop]
  | cons b bs =>
      have hb : b = 0 := by simpa using h
      simp [ft_strchr, strchr_loop, hb]

theorem line_len_of_head {t : List Byte} (h : t.getD 0 0 = 0) : line_len t = 0 := by
  cases t with
  | nil => rfl
  | cons b bs =>
      have hb : b = 0 := by simpa using h
      simp [line_len, hb]

theorem copy_line_none_quiet {w w1 : World} (hq : Quiet w) {t : List Byte}
    (h : copy_line (some t) w = (none, w1)) : t.getD 0 0 = 0 ∧ w1 = w := by
  by_cases h0 : t.getD 0 0 = 0
  · simp only [copy_line, h0, if_true, Prod.mk.injEq, true_and] at h
    exact ⟨h0, h.symm⟩
  · obtain ⟨wm, hm, _⟩ := malloc_quiet hq (line_len t + 2)
    simp only [copy_line, h0, if_false, hm] at h
    split at h <;> simp at h

/-- A call that returns `NULL` in a world where nothing fails leaves the
carryover absent and the stream fully read. -/
theorem gnl_null_quiet (BS fd : Int) (hBS : 0 < BS) (hfd : 0 ≤ fd) (text : Option (List Byte))
    (w : World) (hq : Quiet w) (text1 : Option (List Byte)) (w1 : World)
    (h : get_next_line BS fd text w = some (none, text1, w1)) :
    text1 = none ∧ w1.files fd = [] ∧ Quiet w1 := by
  have hguard : ¬ (fd < 0 ∨ BS ≤ 0) := by omega
  obtain ⟨w0, hm, hq0, _, _, _⟩ := malloc_quiet hq (BS + 1).toNat
  simp only [get_next_line, hguard, if_false, read_file, hm] at h
  cases hrl : read_loop BS fd ((w0.files fd).length + 1) 1 text w0 with
  | none => simp [hrl] at h
  | some p =>
      obtain ⟨res, wl⟩ := p
      obtain ⟨hql, hres, hex⟩ :=
        read_loop_exit BS fd hBS _ _ _ _ _ _ hq0 hrl (Or.inl (by decide))
      cases res with
      | none => exact absurd (hres rfl).2 (by decide)
      | some T =>
          simp only [hrl] at h
          cases hcl : copy_line (some T) wl with
          | mk line w2 =>
              cases hgr : get_remainder T w2 with
              | mk rest w3 =>
                  simp only [hcl, hgr, Option.some.injEq, Prod.mk.injEq] at h
                  obtain ⟨h1, h2, h3⟩ := h
                  subst h1 h2 h3
                  obtain ⟨hT, hw2⟩ := copy_line_none_quiet hql hcl
                  subst hw2
                  have hll := line_len_of_head hT
                  have hT2 : T.getD (line_len T) 0 = 0 := by rw [hll]; exact hT
                  simp only [get_remainder, hT2, if_true, Prod.mk.injEq] at hgr
                  obtain ⟨h4, h5⟩ := hgr
                  subst h4 h5
                  exact ⟨rfl, hex (strchr_none_of_head hT), hql⟩

theorem calls_exhausted (BS fd : Int) (hBS : 0 < BS) (hfd : 0 ≤ fd) :
    ∀ (n : Nat) (w : World), Quiet w → w.files fd = [] →
      ∃ w1, calls BS fd n none w = some (List.replicate n none, none, w1) ∧
        w1.files fd = [] := by
  intro n
  induction n with
  | zero =>
      intro w _ hf
      exact ⟨w, by simp [calls], hf⟩
  | succ n ih =>
      intro w hq hf
      obtain ⟨text1, w1, hg, hq1, _, _, _, hcat, hnone, _⟩ :=
        gnl_quiet BS fd hBS hfd none w hq (by simp) (by rw [hf]; simp)
          (by simp only [Option.getD_none, List.length_nil]; omega)
      have ht1 : text1 = none := hnone.mpr (by rw [hf]; simp)
      subst ht1
      have hf1 : w1.files fd = [] := by
        rw [hf] at hcat
        simpa [after_line] using hcat
      obtain ⟨w2, hrec, hf2⟩ := ih w1 hq1 hf1
      refine ⟨w2, ?_, hf2⟩
      rw [hf] at hg
      simp only [Option.getD_none, List.append_nil, if_true] at hg
      simp only [calls, hg, hrec, List.replicate_succ]

theorem copy_line_nonempty (text : Option (List Byte)) (w w1 : World) (l : List Byte)
    (h : copy_line text w = (some l, w1)) : 1 ≤ l.length := by
  cases text with
  | none => simp [copy_line] at h
  | some t =>
      cases t with
      | nil => simp [copy_line] at h
      | cons b bs =>
          by_cases hb : b = 0
          · simp [copy_line, hb] at h
          · simp only [copy_line, List.getD_cons_zero, hb, if_false] at h
            cases hm : malloc (line_len (b :: bs) + 2) w with
            | mk ok wm =>
                cases ok with
                | false => simp [hm] at h
                | true =>
                    simp only [hm] at h
                    by_cases h10 : (b :: bs).getD (line_len (b :: bs)) 0 = 10
                    · simp only [h10, if_true, Prod.mk.injEq, Option.some.injEq] at h
                      rw [← h.1]
                      simp
                    · simp only [h10, if_false, Prod.mk.injEq, Option.some.injEq] at h
                      rw [← h.1]
                      have hb10 : b ≠ 10 := by
                        intro e
                        apply h10
                        simp [line_len, e]
                      simp [line_len, hb, hb10]

theorem first_line_single {l : List Byte} (h : 10 ∉ l) : first_line (l ++ [10]) = l ++ [10] := by
  induction l with
  | nil => simp [first_line]
  | cons b bs ih =>
      have hb : b ≠ 10 := fun e => h (by simp [e])
      have hbs : 10 ∉ bs := fun e => h (List.mem_cons_of_mem _ e)
      simp [first_line, hb, ih hbs]

theorem after_line_single {l : List Byte} (h : 10 ∉ l) : after_line (l ++ [10]) = [] := by
  rw [after_line_append_of_not_mem _ h]
  simp [after_line]

/-! ## The primitives in an arbitrary world -/

theorem malloc_frame (n : Nat) (w : World) :
    (malloc n w).2.files = w.files ∧ (malloc n w).2.script = w.script ∧
      (malloc n w).2.nread = w.nread := by
  unfold malloc
  cases w.allocs <;> exact ⟨rfl, rfl, rfl⟩

theorem strjoin_frame (s1 s2 : Option (List Byte)) (w : World) :
    (ft_strjoin s1 s2 w).2.files = w.files ∧ (ft_strjoin s1 s2 w).2.script = w.script ∧
      (ft_strjoin s1 s2 w).2.nread = w.nread := by
  unfold ft_strjoin
  by_cases h : s1 = none ∧ s2 = none
  · rw [if_pos h]
    exact ⟨rfl, rfl, rfl⟩
  · rw [if_neg h]
    have hm := malloc_frame (ft_strlen s1 + ft_strlen s2 + 1) w
    rcases hmal : malloc (ft_strlen s1 + ft_strlen s2 + 1) w with ⟨ok, w1⟩
    rw [hmal] at hm
    cases ok <;> exact hm

theorem copy_line_frame (text : Option (List Byte)) (w : World) :
    (copy_line text w).2.files = w.files ∧ (copy_line text w).2.script = w.script ∧
      (copy_line text w).2.nread = w.nread := by
  unfold copy_line
  cases text with
  | none => exact ⟨rfl, rfl, rfl⟩
  | some t =>
      dsimp only
      by_cases h : t.getD 0 0 = 0
      · rw [if_pos h]
        exact ⟨rfl, rfl, rfl⟩
      · rw [if_neg h]
        have hm := malloc_frame (line_len t + 2) w
        rcases hmal : malloc (line_len t + 2) w with ⟨ok, w1⟩
        rw [hmal] at hm
        cases ok
        · exact hm
        · dsimp only
          by_cases h10 : t.getD (line_len t) 0 = 10
          · rw [if_pos h10]
            exact hm
          · rw [if_neg h10]
            exact hm

theorem get_remainder_frame (t : List Byte) (w : World) :
    (get_remainder t w).2.files = w.files ∧ (get_remainder t w).2.script = w.script ∧
      (get_remainder t w).2.nread = w.nread := by
  unfold get_remainder
  have hm := malloc_frame (ft_strlen (some t) - line_len t) w
  rcases hmal : malloc (ft_strlen (some t) - line_len t) w with ⟨ok, w1⟩
  rw [hmal] at hm
  by_cases h : t.getD (line_len t) 0 = 0
  · rw [if_pos h]
    exact ⟨rfl, rfl, rfl⟩
  · rw [if_neg h]
    cases ok <;> exact hm

theorem read_spec (fd : Int) (count : Nat) (w : World) :
    (read fd count w).2.2.nread = w.nread + 1 ∧
      (((read fd count w).1 = -1 ∧ (read fd count w).2.2.files = w.files ∧
          ∃ evs, w.script = ReadEv.fail :: evs ∧ (read fd count w).2.2.script = evs) ∨
        (0 ≤ (read fd count w).1 ∧
          (0 < (read fd count w).1 →
            ((read fd count w).2.2.files fd).length < (w.files fd).length) ∧
          (read fd count w).2.2.script = w.script.tail ∧
          ∀ evs, w.script ≠ ReadEv.fail :: evs)) := by
  unfold read
  cases hsc : w.script with
  | nil =>
      refine ⟨rfl, Or.inr ⟨by simp, ?_, rfl, by simp⟩⟩
      intro hp
      simp only [Nat.cast_pos, List.length_take] at hp
      simp only [Function.update_same, List.length_drop]
      omega
  | cons ev evs =>
      cases ev with
      | fail => exact ⟨rfl, Or.inl ⟨rfl, rfl, evs, rfl, rfl⟩⟩
      | short k =>
          refine ⟨rfl, Or.inr ⟨by simp, ?_, rfl, by simp⟩⟩
          intro hp
          simp only [Nat.cast_pos, List.length_take] at hp
          simp only [Function.update_same, List.length_drop]
          omega

/-- The loop of `read_file` returns: the iteration bound is never reached when
it exceeds the number of unread bytes. -/
theorem read_loop_enough (BS fd : Int) :
    ∀ (fuel : Nat) (bytes : Int) (text : Option (List Byte)) (w : World),
      (0 < bytes → (w.files fd).length < fuel) →
      ∃ r, read_loop BS fd fuel bytes text w = some r := by
  intro fuel
  induction fuel with
  | zero =>
      intro bytes text w hfuel
      have hb : ¬ (bytes > 0) := fun hp => by
        have := hfuel hp
        omega
      exact ⟨(text, w), by simp [read_loop, hb]⟩
  | succ fuel ih =>
      intro bytes text w hfuel
      by_cases hc : bytes > 0 ∧ (text = none ∨ ft_strchr text 10 = none)
      · obtain ⟨_, hrd⟩ := read_spec fd BS.toNat w
        rcases hread : read fd BS.toNat w with ⟨b1, buff, wr⟩
        rw [hread] at hrd
        simp only at hrd
        by_cases hb1 : b1 = -1
        · exact ⟨(none, wr), by simp [read_loop, hc, hread, hb1]⟩
        · have hj := strjoin_frame text (some buff) wr
          rcases hjoin : ft_strjoin text (some buff) wr with ⟨r, wj⟩
          rw [hjoin] at hj
          cases r with
          | none => exact ⟨(none, wj), by simp [read_loop, hc, hread, hb1, hjoin]⟩
          | some t =>
              have hlt : 0 < b1 → (wj.files fd).length < fuel := by
                intro hp
                rcases hrd with hrd | hrd
                · exact absurd hrd.1 hb1
                · have h1 := hrd.2.1 hp
                  have h2 := hfuel hc.1
                  rw [hj.1]
                  omega
              obtain ⟨r, hr⟩ := ih b1 (some t) wj hlt
              exact ⟨r, by
                simp only [read_loop, hc, or_self, and_self, if_true, hread, hb1, if_false,
                  hjoin, hr]⟩
      · exact ⟨(text, w), by simp only [read_loop, hc, if_false]⟩

/-- Every call of get_next_line returns. -/
theorem gnl_returns (BS fd : Int) (text : Option (List Byte)) (w : World) :
    ∃ r, get_next_line BS fd text w = some r := by
  by_cases hg : fd < 0 ∨ BS ≤ 0
  · exact ⟨(none, text, w), by simp only [get_next_line, hg, if_true]⟩
  · simp only [get_next_line, hg, if_false, read_file]
    rcases hm : malloc (BS + 1).toNat w with ⟨ok, w0⟩
    cases ok with
    | false => exact ⟨_, rfl⟩
    | true =>
        obtain ⟨r, hr⟩ :=
          read_loop_enough BS fd ((w0.files fd).length + 1) 1 text w0
            (fun _ => Nat.lt_succ_self _)
        obtain ⟨res, w1⟩ := r
        simp only [hr]
        cases res with
        | none => exact ⟨_, rfl⟩
        | some T => exact ⟨_, rfl⟩

/-! ## Read errors -/

theorem read_loop_error (BS fd : Int) :
    ∀ (fuel : Nat) (bytes : Int) (text : Option (List Byte)) (w : World)
      (pre post : List ReadEv) (res : Option (List Byte)) (w1 : World),
      w.script = pre ++ ReadEv.fail :: post → ReadEv.fail ∉ pre →
      read_loop BS fd fuel bytes text w = some (res, w1) →
      w1.nread ≤ w.nread + pre.length ∨
        (res = none ∧ w1.nread = w.nread + pre.length + 1 ∧ w1.script = post) := by
  intro fuel
  induction fuel with
  | zero =>
      intro bytes text w pre post res w1 _ _ h
      by_cases hc : bytes > 0 ∧ (text = none ∨ ft_strchr text 10 = none)
      · simp [read_loop, hc] at h
      · simp only [read_loop, hc, if_false, Option.some.injEq, Prod.mk.injEq] at h
        left
        rw [← h.2]
        omega
  | succ fuel ih =>
      intro bytes text w pre post res w1 hs hp h
      by_cases hc : bytes > 0 ∧ (text = none ∨ ft_strchr text 10 = none)
      · obtain ⟨hnr, hrd⟩ := read_spec fd BS.toNat w
        rcases hread : read fd BS.toNat w with ⟨b1, buff, wr⟩
        rw [hread] at hrd hnr
        simp only at hrd hnr
        by_cases hb1 : b1 = -1
        · simp only [read_loop, hc, or_self, and_self, if_true, hread, hb1, Option.some.injEq,
            Prod.mk.injEq] at h
          obtain ⟨h1, h2⟩ := h
          subst h1 h2
          rcases hrd with hrd | hrd
          · obtain ⟨_, _, evs, hev, hsc⟩ := hrd
            cases pre with
            | nil =>
                right
                rw [hs] at hev
                simp only [List.nil_append, List.cons.injEq, true_and] at hev
                exact ⟨rfl, by simp [hnr], by rw [hsc, hev]⟩
            | cons e pre1 =>
                rw [hs] at hev
                simp only [List.cons_append, List.cons.injEq] at hev
                exact absurd (by simp [hev.1]) hp
          · omega
        · rcases hrd with hrd | hrd
          · exact absurd hrd.1 hb1
          · obtain ⟨_, _, hsc, hnf⟩ := hrd
            cases pre with
            | nil => exact absurd (by simpa using hs) (hnf post)
            | cons e pre1 =>
                have hj := strjoin_frame text (some buff) wr
                rcases hjoin : ft_strjoin text (some buff) wr with ⟨r, wj⟩
                rw [hjoin] at hj
                simp only at hj
                cases r with
                | none =>
                    simp only [read_loop, hc, or_self, and_self, if_true, hread, hb1, if_false, hjoin,
                      Option.some.injEq, Prod.mk.injEq] at h
                    left
                    rw [← h.2, hj.2.2, hnr]
                    simp
                | some t =>
                    simp only [read_loop, hc, or_self, and_self, if_true, hread, hb1, if_false, hjoin] at h
                    have hs2 : wj.script = pre1 ++ ReadEv.fail :: post := by
                      rw [hj.2.1, hsc, hs]
                      rfl
                    have hp2 : ReadEv.fail ∉ pre1 := fun e1 => hp (List.mem_cons_of_mem _ e1)
                    rcases ih b1 (some t) wj pre1 post res w1 hs2 hp2 h with hx | hx
                    · left
                      rw [hj.2.2, hnr] at hx
                      simp only [List.length_cons]
                      omega
                    · right
                      rw [hj.2.2, hnr] at hx
                      simp only [List.length_cons]
                      exact ⟨hx.1, by omega, hx.2.2⟩
      · simp only [read_loop, hc, if_false, Option.some.injEq, Prod.mk.injEq] at h
        left
        rw [← h.2]
        omega

theorem first_line_id {s : List Byte} (h : 10 ∉ s) : first_line s = s := by
  induction s with
  | nil => rfl
  | cons b bs ih =>
      have hb : b ≠ 10 := fun e => h (by simp [e])
      have hbs : 10 ∉ bs := fun e => h (List.mem_cons_of_mem _ e)
      simp [first_line, hb, ih hbs]

theorem expected_nil (n : Nat) : expected n [] = List.replicate n none := by
  simp [expected, pieces]

/-! ## The carryover between calls -/

theorem first_line_getLast {t : List Byte} (h : 10 ∈ t) :
    (first_line t).getLast? = some 10 := by
  induction t with
  | nil => simp at h
  | cons b bs ih =>
      by_cases hn : b = 10
      · simp [first_line, hn]
      · have hbs : 10 ∈ bs := by
          rcases List.mem_cons.mp h with e | e
          · exact absurd e.symm hn
          · exact e
        have hne : first_line bs ≠ [] :=
          first_line_ne_nil (fun e => by rw [e] at hbs; simp at hbs)
        have ih2 := ih hbs
        simp only [first_line, hn, if_false]
        cases hfl : first_line bs with
        | nil => exact absurd hfl hne
        | cons x xs =>
            rw [hfl] at ih2
            rw [List.getLast?_cons_cons]
            exact ih2

theorem calls_carry (BS fd : Int) (hBS : 0 < BS) (hfd : 0 ≤ fd) :
    ∀ (n : Nat) (text : Option (List Byte)) (w : World),
      Quiet w → 0 ∉ text.getD [] → 0 ∉ w.files fd → (text.getD []).length < BS.toNat →
      ∃ ls t w1, calls BS fd n text w = some (ls, t, w1) ∧
        ls.reduceOption.flatten ++ (t.getD [] ++ w1.files fd) = text.getD [] ++ w.files fd ∧
        (n = 0 ∨ t = none ∨ ∃ l, ls.getLast? = some (some l) ∧ l.getLast? = some 10) := by
  intro n
  induction n with
  | zero =>
      intro text w _ _ _ _
      exact ⟨[], text, w, by simp [calls], by simp, Or.inl rfl⟩
  | succ n ih =>
      intro text w hq ht hf hc
      obtain ⟨text1, w1, hg, hq1, ht1, hf1, hc1, hcat, hnone, _⟩ :=
        gnl_quiet BS fd hBS hfd text w hq ht hf hc
      obtain ⟨ls, t, w2, hcalls, hsum, hlast⟩ := ih text1 w1 hq1 ht1 hf1 hc1
      rw [hcat] at hsum
      refine ⟨(if text.getD [] ++ w.files fd = [] then none
          else some (first_line (text.getD [] ++ w.files fd))) :: ls, t, w2,
        by simp only [calls, hg, hcalls], ?_, Or.inr ?_⟩
      · by_cases hR : text.getD [] ++ w.files fd = []
        · rw [if_pos hR, List.reduceOption_cons_of_none, hsum, hR]
          rfl
        · rw [if_neg hR, List.reduceOption_cons_of_some, List.flatten_cons, List.append_assoc,
            hsum, first_after]
      · rcases hlast with h0 | h1 | ⟨l, hl, h10⟩
        · subst h0
          simp only [calls, Option.some.injEq, Prod.mk.injEq] at hcalls
          obtain ⟨e1, e2, _⟩ := hcalls
          subst e1 e2
          by_cases hn : text1 = none
          · exact Or.inl hn
          · right
            have hmem : 10 ∈ text.getD [] ++ w.files fd := by
              by_contra hx
              exact hn (hnone.mpr hx)
            have hR : ¬ (text.getD [] ++ w.files fd = []) := by
              intro e
              rw [e] at hmem
              simp at hmem
            rw [if_neg hR]
            exact ⟨_, rfl, first_line_getLast hmem⟩
        · exact Or.inl h1
        · right
          refine ⟨l, ?_, h10⟩
          cases ls with
          | nil => simp at hl
          | cons x xs =>
              rw [List.getLast?_cons_cons]
              exact hl

/-! ## The splitter on an arbitrary buffer

The string held in a buffer `t` is `copy_str t`, the bytes before its first NUL;
for a buffer without NUL it is `t` itself (`copy_str_id`). -/

theorem malloc_ok {w : World} (h : AllocOk w) (n : Nat) :
    malloc n w = (true, (malloc n w).2) := by
  unfold AllocOk at h
  unfold malloc
  cases hal : w.allocs with
  | nil => rfl
  | cons ok rest =>
      cases ok with
      | true => rfl
      | false => exact absurd (by simp [hal]) h

theorem head_nul_iff (t : List Byte) : t.getD 0 0 = 0 ↔ copy_str t = [] := by
  cases t with
  | nil => simp [copy_str]
  | cons b bs =>
      by_cases hb : b = 0
      · simp [copy_str, hb]
      · simp [copy_str, hb]

theorem line_shape_any (t : List Byte) :
    (if t.getD (line_len t) 0 = 10 then t.take (line_len t) ++ [10]
      else t.take (line_len t)) = first_line (copy_str t) := by
  induction t with
  | nil => simp [line_len, first_line, copy_str]
  | cons b bs ih =>
      by_cases hb : b = 0
      · simp [line_len, first_line, copy_str, hb]
      · by_cases hn : b = 10
        · simp [line_len, first_line, copy_str, hn]
        · simp only [line_len, first_line, copy_str, hb, hn, or_self, if_false,
            List.getD_cons_succ, List.take_succ_cons]
          rw [← ih]
          split <;> simp

theorem rest_absent_any (t : List Byte) :
    t.getD (line_len t) 0 = 0 ↔ 10 ∉ copy_str t := by
  induction t with
  | nil => simp [line_len, copy_str]
  | cons b bs ih =>
      by_cases hb : b = 0
      · simp [line_len, copy_str, hb]
      · by_cases hn : b = 10
        · simp [line_len, copy_str, hn]
        · have hn2 : ¬ (10 = b) := fun e => hn e.symm
          simp only [line_len, copy_str, hb, hn, or_self, if_false, List.getD_cons_succ]
          rw [ih]
          simp [hn2]

theorem rest_newline_any (t : List Byte) (h : 10 ∈ copy_str t) :
    t.getD (line_len t) 0 = 10 := by
  induction t with
  | nil => simp [copy_str] at h
  | cons b bs ih =>
      by_cases hb : b = 0
      · simp [copy_str, hb] at h
      · by_cases hn : b = 10
        · simp [line_len, hn]
        · have hn2 : ¬ (10 = b) := fun e => hn e.symm
          simp only [copy_str, hb, if_false, List.mem_cons, hn2, false_or] at h
          simp only [line_len, hb, hn, or_self, if_false, List.getD_cons_succ]
          exact ih h

theorem rest_shape_any (t : List Byte) (h : 10 ∈ copy_str t) :
    copy_str (t.drop (line_len t + 1)) = after_line (copy_str t) := by
  induction t with
  | nil => simp [copy_str] at h
  | cons b bs ih =>
      by_cases hb : b = 0
      · simp [copy_str, hb] at h
      · by_cases hn : b = 10
        · simp [line_len, copy_str, after_line, hn]
        · have hn2 : ¬ (10 = b) := fun e => hn e.symm
          simp only [copy_str, hb, if_false, List.mem_cons, hn2, false_or] at h
          simp only [line_len, copy_str, after_line, hb, hn, or_self, if_false,
            List.drop_succ_cons]
          exact ih h

theorem copy_line_any {w : World} (hm : AllocOk w) (t : List Byte) :
    (copy_line (some t) w).1 =
      if copy_str t = [] then none else some (first_line (copy_str t)) := by
  by_cases h0 : t.getD 0 0 = 0
  · have hc : copy_str t = [] := (head_nul_iff t).mp h0
    simp only [copy_line, h0, if_true, hc]
  · have hc : ¬ (copy_str t = []) := fun e => h0 ((head_nul_iff t).mpr e)
    have hsh := line_shape_any t
    simp only [copy_line, h0, if_false, hc]
    rw [malloc_ok hm, ← hsh]
    dsimp only
    by_cases h10 : t.getD (line_len t) 0 = 10
    · rw [if_pos h10, if_pos h10]
    · rw [if_neg h10, if_neg h10]

theorem get_remainder_any {w : World} (hm : AllocOk w) (t : List Byte) :
    (get_remainder t w).1 =
      if 10 ∈ copy_str t then some (after_line (copy_str t)) else none := by
  by_cases hnl : 10 ∈ copy_str t
  · have h10 := rest_newline_any t hnl
    have h0 : ¬ (t.getD (line_len t) 0 = 0) := by
      rw [h10]
      decide
    simp only [get_remainder, h0, if_false, hnl, if_true]
    rw [malloc_ok hm, rest_shape_any t hnl]
  · have h0 : t.getD (line_len t) 0 = 0 := (rest_absent_any t).mpr hnl
    simp only [get_remainder, h0, if_true, hnl, if_false]

theorem first_line_dropLast (c : List Byte) : 10 ∉ (first_line c).dropLast := by
  induction c with
  | nil => simp [first_line]
  | cons b bs ih =>
      by_cases hn : b = 10
      · simp [first_line, hn]
      · have hn2 : ¬ (10 = b) := fun e => hn e.symm
        simp only [first_line, hn, if_false]
        cases hfl : first_line bs with
        | nil => simp
        | cons x xs =>
            rw [hfl] at ih
            rw [List.dropLast_cons₂]
            simp only [List.mem_cons, hn2, false_or]
            exact ih

theorem copy_str_no_nul (t : List Byte) : 0 ∉ copy_str t := by
  induction t with
  | nil => simp [copy_str]
  | cons b bs ih =>
      by_cases hb : b = 0
      · simp [copy_str, hb]
      · have hb2 : ¬ (0 = b) := fun e => hb e.symm
        simp [copy_str, hb, hb2, ih]

/-! ## Termination of the loop -/

theorem read_loop_stop (BS fd : Int) (fuel : Nat) (bytes : Int) (text : Option (List Byte))
    (w : World) (h : ¬ (bytes > 0 ∧ (text = none ∨ ft_strchr text 10 = none))) :
    read_loop BS fd fuel bytes text w = some (text, w) := by
  cases fuel with
  | zero => simp only [read_loop, h, if_false]
  | succ n => simp only [read_loop, h, if_false]

theorem read_loop_mono (BS fd : Int) :
    ∀ (fuel extra : Nat) (bytes : Int) (text : Option (List Byte)) (w : World)
      (r : Option (List Byte) × World),
      read_loop BS fd fuel bytes text w = some r →
      read_loop BS fd (fuel + extra) bytes text w = some r := by
  intro fuel
  induction fuel with
  | zero =>
      intro extra bytes text w r h
      by_cases hc : bytes > 0 ∧ (text = none ∨ ft_strchr text 10 = none)
      · simp [read_loop, hc] at h
      · rw [read_loop_stop BS fd 0 bytes text w hc] at h
        rw [read_loop_stop BS fd (0 + extra) bytes text w hc]
        exact h
  | succ fuel ih =>
      intro extra bytes text w r h
      by_cases hc : bytes > 0 ∧ (text = none ∨ ft_strchr text 10 = none)
      · rw [Nat.add_right_comm]
        rcases hread : read fd BS.toNat w with ⟨b1, buff, wr⟩
        by_cases hb1 : b1 = -1
        · simp only [read_loop, hc, or_self, and_self, if_true, hread, hb1] at h ⊢
          exact h
        · rcases hjoin : ft_strjoin text (some buff) wr with ⟨j, wj⟩
          cases j with
          | none =>
              simp only [read_loop, hc, or_self, and_self, if_true, hread, hb1, if_false,
                hjoin] at h ⊢
              exact h
          | some t =>
              simp only [read_loop, hc, or_self, and_self, if_true, hread, hb1, if_false,
                hjoin] at h ⊢
              exact ih extra b1 (some t) wj r h
      · rw [read_loop_stop BS fd (fuel + 1) bytes text w hc] at h
        rw [read_loop_stop BS fd (fuel + 1 + extra) bytes text w hc]
        exact h

theorem read_file_returns (BS fd : Int) (text : Option (List Byte)) (w : World) :
    ∃ r, read_file BS fd text w = some r := by
  unfold read_file
  rcases hm : malloc (BS + 1).toNat w with ⟨ok, w0⟩
  cases ok with
  | false => exact ⟨_, rfl⟩
  | true =>
      exact read_loop_enough BS fd ((w0.files fd).length + 1) 1 text w0
        (fun _ => Nat.lt_succ_self _)

/-! ## What the loop of read_file consumed, and its last read -/

theorem malloc_asked (n : Nat) (w : World) : (malloc n w).2.asked = w.asked ++ [n] := by
  unfold malloc
  cases w.allocs <;> rfl

theorem strlen_copy_str (s : List Byte) : strlen_loop s = (copy_str s).length := by
  induction s with
  | nil => rfl
  | cons b bs ih =>
      by_cases hb : b = 0
      · simp [strlen_loop, copy_str, hb]
      · simp [strlen_loop, copy_str, hb, ih]

theorem copy_writes_length (s : List Byte) (j : Nat) :
    (copy_writes s j).length = strlen_loop s := by
  induction s generalizing j with
  | nil => rfl
  | cons b bs ih =>
      by_cases hb : b = 0
      · simp [copy_writes, strlen_loop, hb]
      · simp [copy_writes, strlen_loop, hb, ih]

theorem copy_writes_idx (s : List Byte) (j : Nat) :
    ∀ p ∈ copy_writes s j, j ≤ p.1 ∧ p.1 < j + strlen_loop s := by
  induction s generalizing j with
  | nil => simp [copy_writes]
  | cons b bs ih =>
      intro p hp
      by_cases hb : b = 0
      · simp [copy_writes, hb] at hp
      · simp only [copy_writes, hb, if_false, List.mem_cons] at hp
        simp only [strlen_loop, hb, if_false]
        rcases hp with e | e
        · rw [e]
          exact ⟨le_refl _, by omega⟩
        · have := ih (j + 1) p e
          omega

theorem copy_writes_val (s : List Byte) (j : Nat) :
    (copy_writes s j).map Prod.snd = copy_str s := by
  induction s generalizing j with
  | nil => rfl
  | cons b bs ih =>
      by_cases hb : b = 0
      · simp [copy_writes, copy_str, hb]
      · simp [copy_writes, copy_str, hb, ih]

theorem line_writes_idx (t : List Byte) (i : Nat) :
    ∀ p ∈ line_writes t i, i ≤ p.1 ∧ p.1 < i + line_len t := by
  induction t generalizing i with
  | nil => simp [line_writes]
  | cons b bs ih =>
      intro p hp
      by_cases hb : b = 0 ∨ b = 10
      · simp [line_writes, hb] at hp
      · simp only [line_writes, hb, if_false, List.mem_cons] at hp
        simp only [line_len, hb, if_false]
        rcases hp with e | e
        · rw [e]
          exact ⟨le_refl _, by omega⟩
        · have := ih (i + 1) p e
          omega

theorem line_writes_val (t : List Byte) (i : Nat) :
    (line_writes t i).map Prod.snd = t.take (line_len t) := by
  induction t generalizing i with
  | nil => rfl
  | cons b bs ih =>
      by_cases hb : b = 0 ∨ b = 10
      · simp [line_writes, line_len, hb]
      · simp [line_writes, line_len, hb, ih]

theorem line_end (t : List Byte) :
    t.getD (line_len t) 0 = 0 ∨ t.getD (line_len t) 0 = 10 := by
  induction t with
  | nil => simp [line_len]
  | cons b bs ih =>
      by_cases hb : b = 0
      · simp [line_len, hb]
      · by_cases hn : b = 10
        · simp [line_len, hn]
        · simp only [line_len, hb, hn, or_self, if_false, List.getD_cons_succ]
          exact ih

theorem remainder_size (t : List Byte) (h : t.getD (line_len t) 0 ≠ 0) :
    strlen_loop t - line_len t = strlen_loop (t.drop (line_len t + 1)) + 1 := by
  induction t with
  | nil => simp [line_len] at h
  | cons b bs ih =>
      by_cases hb : b = 0
      · simp [line_len, hb] at h
      · by_cases hn : b = 10
        · simp [line_len, strlen_loop, hn]
        · simp only [line_len, hb, hn, or_self, if_false, List.getD_cons_succ] at h
          have ih2 := ih h
          simp only [line_len, strlen_loop, hb, hn, or_self, if_false, List.drop_succ_cons]
          omega

/-! ## Interleaved calls and the shared carryover -/

theorem interleaved_carry_returns (BS fdA fdB : Int) :
    ∀ (n : Nat) (text : Option (List Byte)) (w : World),
      ∃ cs, interleaved_carry BS fdA fdB n text w = some cs := by
  intro n
  induction n with
  | zero =>
      intro text w
      exact ⟨[], rfl⟩
  | succ n ih =>
      intro text w
      obtain ⟨r1, h1⟩ := gnl_returns BS fdA text w
      obtain ⟨l1, t1, w1⟩ := r1
      obtain ⟨r2, h2⟩ := gnl_returns BS fdB t1 w1
      obtain ⟨l2, t2, w2⟩ := r2
      obtain ⟨cs, hcs⟩ := ih t2 w2
      exact ⟨t1 :: t2 :: cs, by simp only [interleaved_carry, h1, h2, hcs]⟩

theorem interleaved_clean (BS fdA fdB : Int) (hBS : 0 < BS) (hA : 0 ≤ fdA) (hB : 0 ≤ fdB)
    (hne : fdA ≠ fdB) :
    ∀ (n : Nat) (text : Option (List Byte)) (w : World) (cs : List (Option (List Byte))),
      Quiet w → text.getD [] = [] → 0 ∉ w.files fdA → 0 ∉ w.files fdB →
      interleaved_carry BS fdA fdB n text w = some cs → (∀ t ∈ cs, t.getD [] = []) →
      ∃ t, interleaved BS fdA fdB n text w =
        some (expected n (w.files fdA), expected n (w.files fdB), t) := by
  intro n
  induction n with
  | zero =>
      intro text w cs _ _ _ _ _ _
      exact ⟨text, by simp [interleaved, expected]⟩
  | succ n ih =>
      intro text w cs hq ht hfA hfB hic hall
      have hpos : 0 < BS.toNat := by omega
      obtain ⟨text1, w1, hg1, hq1, ht1, hfA1, hc1, hcat1, _, hfr1⟩ :=
        gnl_quiet BS fdA hBS hA text w hq (by rw [ht]; simp) hfA
          (by rw [ht]; simpa using hpos)
      have hB1 : w1.files fdB = w.files fdB := hfr1 fdB (fun e => hne e.symm)
      obtain ⟨text2, w2, hg2, hq2, ht2, hfB2, hc2, hcat2, _, hfr2⟩ :=
        gnl_quiet BS fdB hBS hB text1 w1 hq1 ht1 (by rw [hB1]; exact hfB) hc1
      have hA2 : w2.files fdA = w1.files fdA := hfr2 fdA hne
      simp only [interleaved_carry, hg1, hg2] at hic
      cases hrest : interleaved_carry BS fdA fdB n text2 w2 with
      | none => simp [hrest] at hic
      | some rs =>
          simp only [hrest, Option.some.injEq] at hic
          subst hic
          have hcarry1 : text1.getD [] = [] := hall text1 (by simp)
          have hcarry2 : text2.getD [] = [] := hall text2 (by simp)
          have hallrs : ∀ t ∈ rs, t.getD [] = [] := fun t h => hall t (by simp [h])
          rw [ht, List.nil_append] at hg1 hcat1
          rw [hcarry1, List.nil_append] at hcat1 hg2 hcat2
          rw [hcarry2, List.nil_append] at hcat2
          rw [hB1] at hg2 hcat2
          obtain ⟨t, hrec⟩ := ih text2 w2 rs hq2 hcarry2 (by rw [hA2]; exact hfA1) hfB2
            hrest hallrs
          refine ⟨t, ?_⟩
          simp only [interleaved, hg1, hg2, hrec, hA2, hcat1, hcat2, expected_succ]

theorem interleaved_carry_chunk_one (fdA fdB : Int) (hA : 0 ≤ fdA) (hB : 0 ≤ fdB)
    (hne : fdA ≠ fdB) :
    ∀ (n : Nat) (text : Option (List Byte)) (w : World) (cs : List (Option (List Byte))),
      Quiet w → text.getD [] = [] → 0 ∉ w.files fdA → 0 ∉ w.files fdB →
      interleaved_carry 1 fdA fdB n text w = some cs → ∀ t ∈ cs, t.getD [] = [] := by
  intro n
  induction n with
  | zero =>
      intro text w cs _ _ _ _ hic t ht
      simp only [interleaved_carry, Option.some.injEq] at hic
      rw [← hic] at ht
      simp at ht
  | succ n ih =>
      intro text w cs hq ht hfA hfB hic
      obtain ⟨text1, w1, hg1, hq1, ht1, hfA1, hc1, _, _, hfr1⟩ :=
        gnl_quiet 1 fdA (by decide) hA text w hq (by rw [ht]; simp) hfA (by rw [ht]; decide)
      have hcarry1 : text1.getD [] = [] := by
        apply List.eq_nil_of_length_eq_zero
        have : (1 : Int).toNat = 1 := rfl
        omega
      have hB1 : w1.files fdB = w.files fdB := hfr1 fdB (fun e => hne e.symm)
      obtain ⟨text2, w2, hg2, hq2, ht2, hfB2, hc2, _, _, hfr2⟩ :=
        gnl_quiet 1 fdB (by decide) hB text1 w1 hq1 ht1 (by rw [hB1]; exact hfB) hc1
      have hcarry2 : text2.getD [] = [] := by
        apply List.eq_nil_of_length_eq_zero
        have : (1 : Int).toNat = 1 := rfl
        omega
      have hA2 : w2.files fdA = w1.files fdA := hfr2 fdA hne
      simp only [interleaved_carry, hg1, hg2] at hic
      cases hrest : interleaved_carry 1 fdA fdB n text2 w2 with
      | none => simp [hrest] at hic
      | some rs =>
          simp only [hrest, Option.some.injEq] at hic
          subst hic
          have hrs := ih text2 w2 rs hq2 hcarry2 (by rw [hA2]; exact hfA1) hfB2 hrest
          intro t hmem
          simp only [List.mem_cons] at hmem
          rcases hmem with e | e | e
          · rw [e]
            exact hcarry1
          · rw [e]
            exact hcarry2
          · exact hrs t e

/-! ## Claims -/

/-- C1, as stated, fails: on the stream `a NUL b newline` with chunk size 4 the
calls return the single line `a` and then `NULL`, so the concatenation of the
lines is not the stream. -/
theorem C1_counterexample :
    Quiet (openFile 3 [97, 0, 98, 10]) ∧
      read_all 4 3 5 none (openFile 3 [97, 0, 98, 10]) = some [[97]] ∧
      ([[97]] : List (List Byte)).flatten ≠ [97, 0, 98, 10] := by
  decide

/-- C1, amended: for every stream without a zero byte and every positive chunk
size, when no read and no allocation fails, calling get_next_line from an absent
carryover until it returns `NULL` yields lines whose concatenation, in call
order, is exactly the stream. -/
theorem C1_concat_is_stream (BS fd : Int) (hBS : 0 < BS) (hfd : 0 ≤ fd) (w : World)
    (hq : Quiet w) (h0 : 0 ∉ w.files fd) (n : Nat) (hn : (w.files fd).length < n) :
    ∃ ls, read_all BS fd n none w = some ls ∧ ls.flatten = w.files fd := by
  have h := read_all_quiet BS fd hBS hfd n none w hq (by simp) h0
    (by simp only [Option.getD_none, List.length_nil]; omega) (by simpa using hn)
  simp only [Option.getD_none, List.nil_append] at h
  exact ⟨_, h, pieces_join _⟩

/-- C1, amended, on the stream `a b c newline d` with chunk size 2. -/
theorem C1_concat_is_stream_witness :
    (0 : Int) < 2 ∧ (0 : Int) ≤ 3 ∧ Quiet (openFile 3 [97, 98, 99, 10, 100]) ∧
      0 ∉ (openFile 3 [97, 98, 99, 10, 100]).files 3 ∧
      ((openFile 3 [97, 98, 99, 10, 100]).files 3).length < 6 ∧
      ∃ ls, read_all 2 3 6 none (openFile 3 [97, 98, 99, 10, 100]) = some ls ∧
        ls.flatten = (openFile 3 [97, 98, 99, 10, 100]).files 3 :=
  ⟨by decide, by decide, by decide, by decide, by decide,
    C1_concat_is_stream 2 3 (by decide) (by decide) (openFile 3 [97, 98, 99, 10, 100])
      (by decide) (by decide) 6 (by decide)⟩

/-- C2, as stated, fails: no read fails on the stream `a newline b` (no zero
byte, chunk size 4, full reads), but when the allocation of the chunk buffer
fails the first call returns `NULL` and the second returns `a newline`, while the
pieces of the stream are `a newline` and `b`. -/
theorem C2_counterexample :
    (scripted 3 [97, 10, 98] [] [false]).script = [] ∧
      0 ∉ (scripted 3 [97, 10, 98] [] [false]).files 3 ∧
      (calls 4 3 2 none (scripted 3 [97, 10, 98] [] [false])).map
        (fun r => r.1) = some [none, some [97, 10]] ∧
      ((pieces [97, 10, 98]).map some ++ List.replicate 2 none).take 2 =
        [some [97, 10], some [98]] := by
  decide

/-- C2, amended: for every stream without a zero byte, every positive chunk size
and every number of calls `n`, with no read and no allocation failing and the
carryover initially absent, the results of the first `n` calls are the pieces of
the stream cut after each newline, in order, followed by `NULL` once the pieces
are used up. -/
theorem C2_kth_call_kth_piece (BS fd : Int) (hBS : 0 < BS) (hfd : 0 ≤ fd) (w : World)
    (hq : Quiet w) (h0 : 0 ∉ w.files fd) (n : Nat) :
    ∃ t w1, calls BS fd n none w =
      some (((pieces (w.files fd)).map some ++ List.replicate n none).take n, t, w1) := by
  obtain ⟨t, w1, h⟩ := calls_quiet BS fd hBS hfd n none w hq (by simp) h0
    (by simp only [Option.getD_none, List.length_nil]; omega)
  simp only [Option.getD_none, List.nil_append] at h
  exact ⟨t, w1, h⟩

/-- C2, amended, on the stream `a newline b newline c` of the claim, with chunk size 2: the
calls return `a newline`, `b newline`, `c`, then `NULL`. -/
theorem C2_kth_call_kth_piece_witness :
    (0 : Int) < 2 ∧ (0 : Int) ≤ 3 ∧ Quiet (openFile 3 [97, 10, 98, 10, 99]) ∧
      0 ∉ (openFile 3 [97, 10, 98, 10, 99]).files 3 ∧
      ∃ t w1, calls 2 3 4 none (openFile 3 [97, 10, 98, 10, 99]) =
        some ([some [97, 10], some [98, 10], some [99], none], t, w1) :=
  ⟨by decide, by decide, by decide, by decide,
    C2_kth_call_kth_piece 2 3 (by decide) (by decide) (openFile 3 [97, 10, 98, 10, 99])
      (by decide) (by decide) 4⟩

/-- C4, as stated, fails: with chunk size 4, descriptor 3 on `a newline b` and
descriptor 4 on `c newline`, the first call on descriptor 4 returns
`b c newline` (the byte `b` was left in the shared carryover by the call on
descriptor 3), and the second call on descriptor 3 returns `NULL` instead of `b`. -/
theorem C4_counterexample :
    Quiet (openTwo 3 [97, 10, 98] 4 [99, 10]) ∧
      interleaved 4 3 4 2 none (openTwo 3 [97, 10, 98] 4 [99, 10]) =
        some ([some [97, 10], none], [some [98, 99, 10], none], none) ∧
      expected 2 [97, 10, 98] = [some [97, 10], some [98]] ∧
      expected 2 [99, 10] = [some [99, 10], none] := by
  decide

/-- C4, amended: the carryover is one slot shared by all descriptors. For two
streams without zero byte read through distinct descriptors in the order A, B,
A, B, ... from an absent carryover, with a positive chunk size and nothing
failing: if the carryover is absent or empty after every call of the run, the
results for A are the pieces of A's stream and the results for B are the pieces
of B's stream, each followed by `NULL`; and with chunk size 1 the carryover is
absent or empty after every call. -/
theorem C4_interleaved_clean_carry (BS fdA fdB : Int) (hBS : 0 < BS) (hA : 0 ≤ fdA)
    (hB : 0 ≤ fdB) (hne : fdA ≠ fdB) (w : World) (hq : Quiet w) (h0A : 0 ∉ w.files fdA)
    (h0B : 0 ∉ w.files fdB) (n : Nat) :
    ∃ cs, interleaved_carry BS fdA fdB n none w = some cs ∧
      ((∀ t ∈ cs, t.getD [] = []) →
        ∃ t, interleaved BS fdA fdB n none w =
          some (((pieces (w.files fdA)).map some ++ List.replicate n none).take n,
                ((pieces (w.files fdB)).map some ++ List.replicate n none).take n, t)) ∧
      (BS = 1 → ∀ t ∈ cs, t.getD [] = []) := by
  obtain ⟨cs, hcs⟩ := interleaved_carry_returns BS fdA fdB n none w
  refine ⟨cs, hcs, ?_, ?_⟩
  · intro hall
    exact interleaved_clean BS fdA fdB hBS hA hB hne n none w cs hq rfl h0A h0B hcs hall
  · intro h1
    subst h1
    exact interleaved_carry_chunk_one fdA fdB hA hB hne n none w cs hq rfl h0A h0B hcs

/-- C4, amended, with chunk size 4 on the streams `a b c newline` and
`d e f newline`: the carryover is empty or absent after each of the four calls,
and each descriptor gets its own line, then `NULL`. -/
theorem C4_interleaved_clean_carry_witness :
    (0 : Int) < 4 ∧ (0 : Int) ≤ 3 ∧ (0 : Int) ≤ 4 ∧ (3 : Int) ≠ 4 ∧
      Quiet (openTwo 3 [97, 98, 99, 10] 4 [100, 101, 102, 10]) ∧
      0 ∉ (openTwo 3 [97, 98, 99, 10] 4 [100, 101, 102, 10]).files 3 ∧
      0 ∉ (openTwo 3 [97, 98, 99, 10] 4 [100, 101, 102, 10]).files 4 ∧
      interleaved_carry 4 3 4 2 none (openTwo 3 [97, 98, 99, 10] 4 [100, 101, 102, 10]) =
        some [some [], some [], none, none] ∧
      ∃ t, interleaved 4 3 4 2 none (openTwo 3 [97, 98, 99, 10] 4 [100, 101, 102, 10]) =
        some ([some [97, 98, 99, 10], none], [some [100, 101, 102, 10], none], t) := by
  obtain ⟨cs, hcs, himp, _⟩ :=
    C4_interleaved_clean_carry 4 3 4 (by decide) (by decide) (by decide) (by decide)
      (openTwo 3 [97, 98, 99, 10] 4 [100, 101, 102, 10]) (by decide) (by decide)
      (by decide) 2
  have hev : interleaved_carry 4 3 4 2 none
      (openTwo 3 [97, 98, 99, 10] 4 [100, 101, 102, 10]) =
      some [some [], some [], none, none] := by decide
  rw [hev] at hcs
  simp only [Option.some.injEq] at hcs
  subst hcs
  exact ⟨by decide, by decide, by decide, by decide, by decide, by decide, by decide, hev,
    himp (by decide)⟩

/-- C5, as stated, fails: the carryover is shared by all descriptors. With chunk
size 4, descriptor 3 on the empty stream and descriptor 4 on `c newline d`, the
calls on 3, 4, 3 return `NULL`, `c newline`, `d`: the exhausted descriptor 3,
which had returned `NULL`, returns the line `d` on its next call. -/
theorem C5_counterexample :
    Quiet (openTwo 3 [] 4 [99, 10, 100]) ∧
      (openTwo 3 [] 4 [99, 10, 100]).files 3 = [] ∧
      (calls_on 4 [3, 4, 3] none (openTwo 3 [] 4 [99, 10, 100])).map (fun r => r.1) =
        some [none, some [99, 10], some [100]] := by
  decide

/-- C5, amended: when a call of get_next_line returns `NULL` in a world where
nothing fails, the carryover is absent and the stream is exhausted; every
further call that directly follows on the descriptor returns `NULL` and leaves
the carryover absent; and any later call on the exhausted descriptor made while
the carryover is absent or empty returns `NULL` and leaves the carryover
absent. -/
theorem C5_end_marker_stays (BS fd : Int) (hBS : 0 < BS) (hfd : 0 ≤ fd)
    (text : Option (List Byte)) (w : World) (hq : Quiet w)
    (text1 : Option (List Byte)) (w1 : World)
    (h : get_next_line BS fd text w = some (none, text1, w1)) (n : Nat) :
    text1 = none ∧ w1.files fd = [] ∧
      (∃ w2, calls BS fd n text1 w1 = some (List.replicate n none, none, w2) ∧
        w2.files fd = []) ∧
      (∀ (text2 : Option (List Byte)) (w2 : World), Quiet w2 → w2.files fd = [] →
        text2.getD [] = [] →
        ∃ w3, get_next_line BS fd text2 w2 = some (none, none, w3) ∧ w3.files fd = []) := by
  obtain ⟨h1, h2, h3⟩ := gnl_null_quiet BS fd hBS hfd text w hq text1 w1 h
  subst h1
  refine ⟨rfl, h2, calls_exhausted BS fd hBS hfd n w1 h3 h2, ?_⟩
  intro text2 w2 hq2 hf2 ht2
  obtain ⟨text3, w3, hg, _, _, _, _, hcat, hnone, _⟩ :=
    gnl_quiet BS fd hBS hfd text2 w2 hq2 (by rw [ht2]; simp) (by rw [hf2]; simp)
      (by rw [ht2]; simp only [List.length_nil]; omega)
  rw [ht2, hf2] at hg hcat hnone
  have ht3 : text3 = none := hnone.mpr (by simp)
  subst ht3
  have hf3 : w3.files fd = [] := by simpa [after_line] using hcat
  exact ⟨w3, by simpa using hg, hf3⟩

/-- C5, amended, on an exhausted descriptor whose carryover is the empty string:
the call returns `NULL`, so do the three calls after it, and so does a call made
later with an absent carryover. -/
theorem C5_end_marker_stays_witness :
    (0 : Int) < 4 ∧ (0 : Int) ≤ 3 ∧ Quiet (openFile 3 []) ∧
      ∃ text1 w1, get_next_line 4 3 (some []) (openFile 3 []) = some (none, text1, w1) ∧
        text1 = none ∧ w1.files 3 = [] ∧
        (∃ w2, calls 4 3 3 text1 w1 = some ([none, none, none], none, w2) ∧
          w2.files 3 = []) ∧
        (∃ w3, get_next_line 4 3 none (openTwo 3 [] 4 [99, 10]) = some (none, none, w3) ∧
          w3.files 3 = []) := by
  have h : ∃ text1 w1,
      get_next_line 4 3 (some []) (openFile 3 []) = some (none, text1, w1) := ⟨_, _, rfl⟩
  obtain ⟨text1, w1, h⟩ := h
  obtain ⟨e1, e2, e3, e4⟩ :=
    C5_end_marker_stays 4 3 (by decide) (by decide) (some []) (openFile 3 []) (by decide)
      text1 w1 h 3
  exact ⟨by decide, by decide, by decide, text1, w1, h, e1, e2, e3,
    e4 none (openTwo 3 [] 4 [99, 10]) (by decide) (by decide) (by decide)⟩

/-- C6: a line returned by get_next_line is never empty, in any world; on an
empty stream the first call returns `NULL`; and when the bytes still to deliver
are one last line ending in a newline, the call returns that line and leaves the
empty string as carryover, and the call after it returns `NULL` and leaves the
carryover absent. -/
theorem C6_no_empty_line :
    (∀ (BS fd : Int) (text : Option (List Byte)) (w : World) (l : List Byte)
        (text1 : Option (List Byte)) (w1 : World),
        get_next_line BS fd text w = some (some l, text1, w1) → 1 ≤ l.length) ∧
    (∀ (BS fd : Int) (w : World), 0 < BS → 0 ≤ fd → Quiet w → w.files fd = [] →
        ∃ w1, get_next_line BS fd none w = some (none, none, w1)) ∧
    (∀ (BS fd : Int) (text : Option (List Byte)) (w : World) (l : List Byte),
        0 < BS → 0 ≤ fd → Quiet w → 0 ∉ l → 10 ∉ l →
        (text.getD []).length < BS.toNat → text.getD [] ++ w.files fd = l ++ [10] →
        ∃ w1 w2, get_next_line BS fd text w = some (some (l ++ [10]), some [], w1) ∧
          get_next_line BS fd (some []) w1 = some (none, none, w2)) := by
  refine ⟨?_, ?_, ?_⟩
  · intro BS fd text w l text1 w1 h
    by_cases hg : fd < 0 ∨ BS ≤ 0
    · simp [get_next_line, hg] at h
    · simp only [get_next_line, hg, if_false] at h
      cases hrf : read_file BS fd text w with
      | none => simp [hrf] at h
      | some p =>
          obtain ⟨res, wr⟩ := p
          cases res with
          | none => simp [hrf] at h
          | some T =>
              simp only [hrf] at h
              cases hcl : copy_line (some T) wr with
              | mk line w2 =>
                  cases hgr : get_remainder T w2 with
                  | mk rest w3 =>
                      simp only [hcl, hgr, Option.some.injEq, Prod.mk.injEq] at h
                      rw [h.1] at hcl
                      exact copy_line_nonempty _ _ _ _ hcl
  · intro BS fd w hBS hfd hq hf
    obtain ⟨text1, w1, hg, _, _, _, _, _, hnone, _⟩ :=
      gnl_quiet BS fd hBS hfd none w hq (by simp) (by rw [hf]; simp)
        (by simp only [Option.getD_none, List.length_nil]; omega)
    have ht1 : text1 = none := hnone.mpr (by rw [hf]; simp)
    subst ht1
    rw [hf] at hg
    exact ⟨w1, by simpa using hg⟩
  · intro BS fd text w l hBS hfd hq hl0 hl10 hc hR
    have hR0 : 0 ∉ text.getD [] ++ w.files fd := by
      rw [hR]
      simp [hl0]
    obtain ⟨text1, w1, hg, hq1, ht1, hf1, hc1, hcat, hnone, _⟩ :=
      gnl_quiet BS fd hBS hfd text w hq (fun e => hR0 (List.mem_append_left _ e))
        (fun e => hR0 (List.mem_append_right _ e)) hc
    rw [hR] at hg hcat hnone
    rw [first_line_single hl10, if_neg (by simp)] at hg
    rw [after_line_single hl10] at hcat
    obtain ⟨hcarry, hfiles⟩ := List.append_eq_nil.mp hcat
    have hsome : text1 = some [] := by
      cases text1 with
      | none => exact absurd rfl (fun e => (hnone.mp e) (by simp))
      | some c => simpa using hcarry
    subst hsome
    obtain ⟨text2, w2, hg2, _, _, _, _, _, hnone2, _⟩ :=
      gnl_quiet BS fd hBS hfd (some []) w1 hq1 (by simp) hf1 hc1
    have ht2 : text2 = none := hnone2.mpr (by rw [hfiles]; simp)
    subst ht2
    rw [hfiles] at hg2
    exact ⟨w1, w2, hg, by simpa using hg2⟩

/-- C6 on the empty stream and on the stream `a newline` of the claim, with chunk
size 4. -/
theorem C6_no_empty_line_witness :
    (∃ w1, get_next_line 4 3 none (openFile 3 []) = some (none, none, w1)) ∧
    (∃ w1 w2, get_next_line 4 3 none (openFile 3 [97, 10]) =
        some (some ([97] ++ [10]), some [], w1) ∧
      get_next_line 4 3 (some []) w1 = some (none, none, w2)) ∧
    (1 ≤ ([97] ++ [10] : List Byte).length) := by
  obtain ⟨w1, w2, h1, h2⟩ := C6_no_empty_line.2.2 4 3 none (openFile 3 [97, 10]) [97]
    (by decide) (by decide) (by decide) (by decide) (by decide) (by decide) (by decide)
  exact ⟨C6_no_empty_line.2.1 4 3 (openFile 3 []) (by decide) (by decide) (by decide)
      (by decide), ⟨w1, w2, h1, h2⟩, C6_no_empty_line.1 4 3 none _ _ _ _ h1⟩

/-- C7: for a negative descriptor, and for any descriptor when the chunk size is
not positive, get_next_line returns `NULL` at once: the world is unchanged (no
read is issued, no allocation is made) and the carryover is as it was. -/
theorem C7_invalid_input (BS fd : Int) (text : Option (List Byte)) (w : World)
    (h : fd < 0 ∨ BS ≤ 0) : get_next_line BS fd text w = some (none, text, w) := by
  simp [get_next_line, h]

/-- C7 on descriptor `-1` with chunk size 4, and on descriptor 3 with chunk size 0. -/
theorem C7_invalid_input_witness :
    ((-1 : Int) < 0 ∨ (4 : Int) ≤ 0) ∧ ((3 : Int) < 0 ∨ (0 : Int) ≤ 0) ∧
      get_next_line 4 (-1) (some [97]) (openFile 3 [98, 10]) =
        some (none, some [97], openFile 3 [98, 10]) ∧
      get_next_line 0 3 (some [97]) (openFile 3 [98, 10]) =
        some (none, some [97], openFile 3 [98, 10]) :=
  ⟨by decide, by decide, C7_invalid_input 4 (-1) (some [97]) (openFile 3 [98, 10]) (by decide),
    C7_invalid_input 0 3 (some [97]) (openFile 3 [98, 10]) (by decide)⟩

/-- C8: every call returns, and when the first failing read scheduled (the one
after the reads `pre`) is issued during the call, the call returns `NULL`, the
carryover is absent afterwards, and that read is the last one issued: no read
follows it. -/
theorem C8_read_error (BS fd : Int) (text : Option (List Byte)) (w : World)
    (pre post : List ReadEv) (hs : w.script = pre ++ ReadEv.fail :: post)
    (hp : ReadEv.fail ∉ pre) :
    ∃ line text1 w1, get_next_line BS fd text w = some (line, text1, w1) ∧
      (w.nread + pre.length < w1.nread →
        line = none ∧ text1 = none ∧ w1.nread = w.nread + pre.length + 1 ∧
          w1.script = post) := by
  obtain ⟨r, hr⟩ := gnl_returns BS fd text w
  obtain ⟨line, text1, w1⟩ := r
  refine ⟨line, text1, w1, hr, ?_⟩
  intro hissued
  by_cases hg : fd < 0 ∨ BS ≤ 0
  · simp only [get_next_line, hg, if_true, Option.some.injEq, Prod.mk.injEq] at hr
    rw [← hr.2.2] at hissued
    omega
  · simp only [get_next_line, hg, if_false, read_file] at hr
    have hm := malloc_frame (BS + 1).toNat w
    rcases hmal : malloc (BS + 1).toNat w with ⟨ok, w0⟩
    rw [hmal] at hm hr
    simp only at hm
    cases ok with
    | false =>
        simp only [Option.some.injEq, Prod.mk.injEq] at hr
        rw [← hr.2.2, hm.2.2] at hissued
        omega
    | true =>
        simp only at hr
        cases hrl : read_loop BS fd ((w0.files fd).length + 1) 1 text w0 with
        | none => simp [hrl] at hr
        | some p =>
            obtain ⟨res, wl⟩ := p
            have herr := read_loop_error BS fd _ _ _ _ pre post res wl
              (by rw [hm.2.1]; exact hs) hp hrl
            rw [hm.2.2] at herr
            cases res with
            | none =>
                simp only [hrl, Option.some.injEq, Prod.mk.injEq] at hr
                obtain ⟨h1, h2, h3⟩ := hr
                subst h1 h2 h3
                rcases herr with hx | hx
                · omega
                · exact ⟨rfl, rfl, hx.2.1, hx.2.2⟩
            | some T =>
                simp only [hrl, Option.some.injEq, Prod.mk.injEq] at hr
                obtain ⟨_, _, h3⟩ := hr
                have hc := copy_line_frame (some T) wl
                have hgr := get_remainder_frame T (copy_line (some T) wl).2
                rw [h3] at hgr
                rcases herr with hx | hx
                · rw [hgr.2.2, hc.2.2] at hissued
                  omega
                · exact absurd hx.1 (by simp)

/-- C8 on a call with carryover `x` whose first read delivers one byte and whose
second read fails: the call returns `NULL`, the carryover is absent, and two
reads were issued. -/
theorem C8_read_error_witness :
    (scripted 3 [97, 98, 10] [ReadEv.short 1, ReadEv.fail] []).script =
        [ReadEv.short 1] ++ ReadEv.fail :: [] ∧
      ReadEv.fail ∉ [ReadEv.short 1] ∧
      ∃ w1, get_next_line 4 3 (some [120])
          (scripted 3 [97, 98, 10] [ReadEv.short 1, ReadEv.fail] []) = some (none, none, w1) ∧
        w1.nread = 2 ∧ w1.script = [] := by
  obtain ⟨line, text1, w1, h, himp⟩ :=
    C8_read_error 4 3 (some [120]) (scripted 3 [97, 98, 10] [ReadEv.short 1, ReadEv.fail] [])
      [ReadEv.short 1] [] rfl (by decide)
  have hev : (get_next_line 4 3 (some [120])
      (scripted 3 [97, 98, 10] [ReadEv.short 1, ReadEv.fail] [])).map (fun r => r.2.2.nread) =
      some 2 := by decide
  rw [h] at hev
  simp only [Option.map_some', Option.some.injEq] at hev
  obtain ⟨h1, h2, _, h4⟩ := himp (by rw [hev]; decide)
  subst h1 h2
  exact ⟨rfl, by decide, w1, h, hev, h4⟩

/-- C9, evaluated where the code departs from it. Stream `a newline b`, chunk
size 4, carryover absent. When the allocation of the chunk buffer (first
allocation of the call) or of the joined buffer (second) fails, the call returns
`NULL` and the carryover is absent. When the allocation of the line in copy_line
fails (third), the call returns `NULL` but the carryover is the string `b`, so
the next call returns `b` and the line `a newline` is lost. When the allocation
in get_remainder fails (fourth), the call returns the line `a newline`, not
`NULL`, and the carryover is absent. -/
theorem C9_alloc_failure_evaluated :
    (get_next_line 4 3 none (scripted 3 [97, 10, 98] [] [false])).map
        (fun r => (r.1, r.2.1)) = some (none, none) ∧
      (get_next_line 4 3 none (scripted 3 [97, 10, 98] [] [true, false])).map
        (fun r => (r.1, r.2.1)) = some (none, none) ∧
      (get_next_line 4 3 none (scripted 3 [97, 10, 98] [] [true, true, false])).map
        (fun r => (r.1, r.2.1)) = some (none, some [98]) ∧
      (calls 4 3 2 none (scripted 3 [97, 10, 98] [] [true, true, false])).map
        (fun r => r.1) = some [none, some [98]] ∧
      (get_next_line 4 3 none (scripted 3 [97, 10, 98] [] [true, true, true, false])).map
        (fun r => (r.1, r.2.1)) = some (some [97, 10], none) := by
  decide

/-- C10, as stated, fails: the empty stream has no newline and length 0 below
the chunk size, and yields no line at all (the first call returns `NULL`); the
stream `a NUL b` yields the line `a`, not the full stream. -/
theorem C10_counterexample :
    Quiet (openFile 3 []) ∧ 10 ∉ ([] : List Byte) ∧ (([] : List Byte).length : Int) < 4 ∧
      (calls 4 3 2 none (openFile 3 [])).map (fun r => r.1) = some [none, none] ∧
    Quiet (openFile 3 [97, 0, 98]) ∧ 10 ∉ ([97, 0, 98] : List Byte) ∧
      (([97, 0, 98] : List Byte).length : Int) < 4 ∧
      (calls 4 3 2 none (openFile 3 [97, 0, 98])).map (fun r => r.1) =
        some [some [97], none] := by
  decide

/-- C10, amended: for every non-empty stream that contains no newline and no
zero byte and whose length is less than the chunk size, with nothing failing,
the calls from an absent carryover yield one line, equal to the full stream, and
`NULL` from then on. -/
theorem C10_single_line (BS fd : Int) (hfd : 0 ≤ fd) (w : World) (hq : Quiet w)
    (hne : w.files fd ≠ []) (h0 : 0 ∉ w.files fd) (h10 : 10 ∉ w.files fd)
    (hL : ((w.files fd).length : Int) < BS) (k : Nat) :
    ∃ t w1, calls BS fd (k + 1) none w =
      some (some (w.files fd) :: List.replicate k none, t, w1) := by
  have hBS : 0 < BS := by omega
  obtain ⟨t, w1, h⟩ := calls_quiet BS fd hBS hfd (k + 1) none w hq (by simp) h0
    (by simp only [Option.getD_none, List.length_nil]; omega)
  simp only [Option.getD_none, List.nil_append] at h
  rw [expected_succ, if_neg hne, first_line_id h10, after_line_nil_of_not_mem h10,
    expected_nil] at h
  exact ⟨t, w1, h⟩

/-- C10, amended, on the stream `a b c` with chunk size 4. -/
theorem C10_single_line_witness :
    (0 : Int) ≤ 3 ∧ Quiet (openFile 3 [97, 98, 99]) ∧
      (openFile 3 [97, 98, 99]).files 3 ≠ [] ∧ 0 ∉ (openFile 3 [97, 98, 99]).files 3 ∧
      10 ∉ (openFile 3 [97, 98, 99]).files 3 ∧
      (((openFile 3 [97, 98, 99]).files 3).length : Int) < 4 ∧
      ∃ t w1, calls 4 3 (2 + 1) none (openFile 3 [97, 98, 99]) =
        some (some ((openFile 3 [97, 98, 99]).files 3) :: List.replicate 2 none, t, w1) :=
  ⟨by decide, by decide, by decide, by decide, by decide, by decide,
    C10_single_line 4 3 (by decide) (openFile 3 [97, 98, 99]) (by decide) (by decide)
      (by decide) (by decide) (by decide) 2⟩

/-- C11, as stated, fails: on the stream `a newline b newline c NUL d` with chunk
size 8, after the first call (which read the whole stream and returned
`a newline`) the carryover is `b newline c`: it is not absent, it contains a
newline, and it is not the bytes read so far after the returned line, which are
`b newline c NUL d`. -/
theorem C11_counterexample :
    Quiet (openFile 3 [97, 10, 98, 10, 99, 0, 100]) ∧
      (calls 8 3 1 none (openFile 3 [97, 10, 98, 10, 99, 0, 100])).map
        (fun r => (r.1, r.2.1, r.2.2.files 3)) =
        some ([some [97, 10]], some [98, 10, 99], []) ∧
      10 ∈ ([98, 10, 99] : List Byte) ∧
      ([97, 10] ++ [98, 10, 99] ++ [] : List Byte) ≠ [97, 10, 98, 10, 99, 0, 100] := by
  decide

/-- C11, amended: for a stream without a zero byte, starting from an absent
carryover and with nothing failing, after any number of calls the carryover is
absent, or the most recent call returned a line ending in a newline and the
lines returned so far, followed by the carryover and by the unread bytes, are
exactly the stream: the carryover is the bytes read so far that follow that
newline. -/
theorem C11_carryover_invariant (BS fd : Int) (hBS : 0 < BS) (hfd : 0 ≤ fd) (w : World)
    (hq : Quiet w) (h0 : 0 ∉ w.files fd) (n : Nat) :
    ∃ ls t w1, calls BS fd n none w = some (ls, t, w1) ∧
      (t = none ∨ ∃ c l, t = some c ∧ ls.getLast? = some (some l) ∧
        l.getLast? = some 10 ∧
        ls.reduceOption.flatten ++ c ++ w1.files fd = w.files fd) := by
  obtain ⟨ls, t, w1, hcalls, hsum, hlast⟩ :=
    calls_carry BS fd hBS hfd n none w hq (by simp) h0
      (by simp only [Option.getD_none, List.length_nil]; omega)
  refine ⟨ls, t, w1, hcalls, ?_⟩
  cases t with
  | none => exact Or.inl rfl
  | some c =>
      right
      rcases hlast with hn | hn | ⟨l, hl, h10⟩
      · subst hn
        simp [calls] at hcalls
      · simp at hn
      · refine ⟨c, l, rfl, hl, h10, ?_⟩
        simpa [List.append_assoc] using hsum

/-- C11, amended, on the stream `a newline b newline c` with chunk size 8: after
the first call the carryover is `b newline c`. -/
theorem C11_carryover_invariant_witness :
    (0 : Int) < 8 ∧ (0 : Int) ≤ 3 ∧ Quiet (openFile 3 [97, 10, 98, 10, 99]) ∧
      0 ∉ (openFile 3 [97, 10, 98, 10, 99]).files 3 ∧
      (calls 8 3 1 none (openFile 3 [97, 10, 98, 10, 99])).map (fun r => (r.1, r.2.1)) =
        some ([some [97, 10]], some [98, 10, 99]) ∧
      ∃ ls t w1, calls 8 3 1 none (openFile 3 [97, 10, 98, 10, 99]) = some (ls, t, w1) ∧
        (t = none ∨ ∃ c l, t = some c ∧ ls.getLast? = some (some l) ∧
          l.getLast? = some 10 ∧
          ls.reduceOption.flatten ++ c ++ w1.files 3 =
            (openFile 3 [97, 10, 98, 10, 99]).files 3) :=
  ⟨by decide, by decide, by decide, by decide, by decide,
    C11_carryover_invariant 8 3 (by decide) (by decide) (openFile 3 [97, 10, 98, 10, 99])
      (by decide) (by decide) 1⟩

/-- C12: when the allocation succeeds, copy_line returns `NULL` exactly when
`text` is absent or holds the empty string, and otherwise returns the first piece
of the string held in `text`: its bytes up to and including the first newline,
or all of them when it has no newline. For a buffer without NUL the string is
the buffer itself, and a buffer starting with a newline yields the newline
alone. -/
theorem C12_copy_line (w : World) (hm : AllocOk w) :
    (∀ text : Option (List Byte),
        (copy_line text w).1 = none ↔ text = none ∨ ∃ t, text = some t ∧ copy_str t = []) ∧
    (∀ t : List Byte, copy_str t ≠ [] →
        (copy_line (some t) w).1 = some (first_line (copy_str t))) ∧
    (∀ t : List Byte, 0 ∉ t → t ≠ [] → (copy_line (some t) w).1 = some (first_line t)) ∧
    (∀ bs : List Byte, (copy_line (some (10 :: bs)) w).1 = some [10]) := by
  refine ⟨?_, ?_, ?_, ?_⟩
  · intro text
    cases text with
    | none => simp [copy_line]
    | some t =>
        rw [copy_line_any hm]
        by_cases hc : copy_str t = [] <;> simp [hc]
  · intro t hc
    rw [copy_line_any hm, if_neg hc]
  · intro t h0 hne
    rw [copy_line_any hm, copy_str_id h0, if_neg hne]
  · intro bs
    rw [copy_line_any hm]
    simp [copy_str, first_line]

/-- C12 on the buffers `a b newline c`, `a b`, `newline a`, the empty string and
`NULL`. -/
theorem C12_copy_line_witness :
    AllocOk (openFile 3 []) ∧
      (copy_line (some [97, 98, 10, 99]) (openFile 3 [])).1 = some [97, 98, 10] ∧
      (copy_line (some [97, 98]) (openFile 3 [])).1 = some [97, 98] ∧
      (copy_line (some [10, 97]) (openFile 3 [])).1 = some [10] ∧
      ((copy_line (some []) (openFile 3 [])).1 = none ↔
        (some [] : Option (List Byte)) = none ∨
          ∃ t, (some [] : Option (List Byte)) = some t ∧ copy_str t = []) ∧
      ((copy_line none (openFile 3 [])).1 = none ↔
        (none : Option (List Byte)) = none ∨
          ∃ t, (none : Option (List Byte)) = some t ∧ copy_str t = []) :=
  ⟨by decide,
    (C12_copy_line (openFile 3 []) (by decide)).2.2.1 [97, 98, 10, 99] (by decide) (by decide),
    (C12_copy_line (openFile 3 []) (by decide)).2.2.1 [97, 98] (by decide) (by decide),
    (C12_copy_line (openFile 3 []) (by decide)).2.2.2 [97],
    (C12_copy_line (openFile 3 []) (by decide)).1 (some []),
    (C12_copy_line (openFile 3 []) (by decide)).1 none⟩

/-- C13, as stated, fails: the buffer `a newline b` holds a newline, and when the
allocation fails get_remainder returns `NULL`, not the bytes after the newline. -/
theorem C13_counterexample :
    10 ∈ ([97, 10, 98] : List Byte) ∧ 0 ∉ ([97, 10, 98] : List Byte) ∧
      (get_remainder [97, 10, 98] (scripted 3 [] [] [false])).1 = none ∧
      after_line [97, 10, 98] = [98] := by
  decide

/-- C13, amended: when the allocation succeeds, get_remainder returns `NULL` if the
string held in `text` has no newline, and otherwise exactly the bytes of that
string strictly after its first newline; when that newline is the last byte the
result is the empty string, not `NULL`. For a buffer without NUL the string is
the buffer itself. -/
theorem C13_get_remainder (w : World) (hm : AllocOk w) :
    (∀ t : List Byte, 10 ∉ copy_str t → (get_remainder t w).1 = none) ∧
    (∀ t : List Byte, 10 ∈ copy_str t →
        (get_remainder t w).1 = some (after_line (copy_str t))) ∧
    (∀ t : List Byte, 0 ∉ t → 10 ∉ t → (get_remainder t w).1 = none) ∧
    (∀ t : List Byte, 0 ∉ t → 10 ∈ t → (get_remainder t w).1 = some (after_line t)) ∧
    (∀ l : List Byte, 0 ∉ l → 10 ∉ l → (get_remainder (l ++ [10]) w).1 = some []) := by
  refine ⟨?_, ?_, ?_, ?_, ?_⟩
  · intro t h
    rw [get_remainder_any hm, if_neg h]
  · intro t h
    rw [get_remainder_any hm, if_pos h]
  · intro t h0 h
    rw [get_remainder_any hm, copy_str_id h0, if_neg h]
  · intro t h0 h
    rw [get_remainder_any hm, copy_str_id h0, if_pos h]
  · intro l h0 h10
    have hz : 0 ∉ l ++ [10] := by simp [h0]
    rw [get_remainder_any hm, copy_str_id hz, if_pos (by simp), after_line_single h10]

/-- C13, amended, on the buffers `a b` (no newline), `a newline b c` and
`a newline`. -/
theorem C13_get_remainder_witness :
    AllocOk (openFile 3 []) ∧
      (get_remainder [97, 98] (openFile 3 [])).1 = none ∧
      (get_remainder [97, 10, 98, 99] (openFile 3 [])).1 = some [98, 99] ∧
      (get_remainder ([97] ++ [10]) (openFile 3 [])).1 = some [] :=
  ⟨by decide,
    (C13_get_remainder (openFile 3 []) (by decide)).2.2.1 [97, 98] (by decide) (by decide),
    (C13_get_remainder (openFile 3 []) (by decide)).2.2.2.1 [97, 10, 98, 99] (by decide)
      (by decide),
    (C13_get_remainder (openFile 3 []) (by decide)).2.2.2.2 [97] (by decide) (by decide)⟩

/-- C16: the loop of read_file terminates. For every stream, chunk size,
carryover and world, an iteration bound above the number of unread bytes is never
reached and any larger bound gives the same result; read_file and get_next_line
return. When reads deliver at least one byte while bytes remain, a read on a
non-empty stream returns a positive count and strictly decreases the number of
unread bytes, a read at end-of-stream returns 0, and the loop stops as soon as
the count is not positive. -/
theorem C16_termination :
    (∀ (BS fd : Int) (fuel : Nat) (bytes : Int) (text : Option (List Byte)) (w : World),
        (w.files fd).length < fuel →
        ∃ r, read_loop BS fd fuel bytes text w = some r ∧
          ∀ extra, read_loop BS fd (fuel + extra) bytes text w = some r) ∧
    (∀ (BS fd : Int) (text : Option (List Byte)) (w : World),
        ∃ r, read_file BS fd text w = some r) ∧
    (∀ (BS fd : Int) (text : Option (List Byte)) (w : World),
        ∃ r, get_next_line BS fd text w = some r) ∧
    (∀ (BS fd : Int) (w : World), 0 < BS → Quiet w → w.files fd ≠ [] →
        0 < (read fd BS.toNat w).1 ∧
          ((read fd BS.toNat w).2.2.files fd).length < (w.files fd).length) ∧
    (∀ (BS fd : Int) (w : World), 0 < BS → Quiet w → w.files fd = [] →
        (read fd BS.toNat w).1 = 0) ∧
    (∀ (BS fd : Int) (fuel : Nat) (bytes : Int) (text : Option (List Byte)) (w : World),
        bytes ≤ 0 → read_loop BS fd fuel bytes text w = some (text, w)) := by
  refine ⟨?_, read_file_returns, gnl_returns, ?_, ?_, ?_⟩
  · intro BS fd fuel bytes text w hlt
    obtain ⟨r, hr⟩ := read_loop_enough BS fd fuel bytes text w (fun _ => hlt)
    exact ⟨r, hr, fun extra => read_loop_mono BS fd fuel extra bytes text w r hr⟩
  · intro BS fd w hBS hq hne
    have hcnt : 1 ≤ BS.toNat := by omega
    obtain ⟨n, w1, hn1, _, hrd, _, hf1, _, _⟩ := read_quiet hq fd hcnt
    have hlen : 0 < (w.files fd).length := List.length_pos.mpr hne
    rw [hrd]
    simp only [hf1, List.length_take, List.length_drop, Nat.cast_pos]
    omega
  · intro BS fd w hBS hq he
    have hcnt : 1 ≤ BS.toNat := by omega
    obtain ⟨n, w1, _, _, hrd, _, _, _, _⟩ := read_quiet hq fd hcnt
    rw [hrd, he]
    simp
  · intro BS fd fuel bytes text w hb
    exact read_loop_stop BS fd fuel bytes text w (fun h => by omega)

/-- C16 on the stream `a b c newline d` in a world that delivers one byte per read,
with chunk size 2 and an iteration bound of 6, and on the empty stream. -/
theorem C16_termination_witness :
    (∃ r, read_loop 2 3 6 1 none
        (scripted 3 [97, 98, 99, 10, 100] [ReadEv.short 1, ReadEv.short 1] []) = some r ∧
      ∀ extra, read_loop 2 3 (6 + extra) 1 none
        (scripted 3 [97, 98, 99, 10, 100] [ReadEv.short 1, ReadEv.short 1] []) = some r) ∧
    (0 < (read 3 (2 : Int).toNat (openFile 3 [97, 98, 99])).1 ∧
      ((read 3 (2 : Int).toNat (openFile 3 [97, 98, 99])).2.2.files 3).length <
        ((openFile 3 [97, 98, 99]).files 3).length) ∧
    (read 3 (2 : Int).toNat (openFile 3 [])).1 = 0 :=
  ⟨C16_termination.1 2 3 6 1 none
      (scripted 3 [97, 98, 99, 10, 100] [ReadEv.short 1, ReadEv.short 1] []) (by decide),
    C16_termination.2.2.2.1 2 3 (openFile 3 [97, 98, 99]) (by decide) (by decide) (by decide),
    C16_termination.2.2.2.2.1 2 3 (openFile 3 []) (by decide) (by decide) (by decide)⟩

/-- C17, as stated, fails: on the stream `a b newline` (no zero byte) with chunk
size 4 and the allocation of the first joined buffer failing, no read fails and
every read delivers at least one byte, yet three calls return `NULL`, `NULL`,
`NULL` under full reads and `NULL`, `b newline`, `NULL` under reads of one
byte. -/
theorem C17_counterexample :
    0 ∉ ([97, 98, 10] : List Byte) ∧
      (∀ ev ∈ [ReadEv.short 1, ReadEv.short 1, ReadEv.short 1], ReadEv.ok ev = true) ∧
      (calls 4 3 3 none (scripted 3 [97, 98, 10] [] [true, false])).map
        (fun x => x.1) = some [none, none, none] ∧
      (calls 4 3 3 none (scripted 3 [97, 98, 10]
        [ReadEv.short 1, ReadEv.short 1, ReadEv.short 1] [true, false])).map
        (fun x => x.1) = some [none, some [98, 10], none] := by
  decide

/-- C17, amended: for every stream without a zero byte and every two worlds
holding that stream behind the descriptor, each with its own schedule of short
reads (every read delivering at least one byte while bytes remain), with no read
and no allocation failing, the results of any number of successive calls are the
same under both schedules. -/
theorem C17_schedule_independent (BS fd : Int) (hBS : 0 < BS) (hfd : 0 ≤ fd)
    (w w2 : World) (hq : Quiet w) (hq2 : Quiet w2) (hsame : w2.files fd = w.files fd)
    (h0 : 0 ∉ w.files fd) (n : Nat) :
    ∃ r, (calls BS fd n none w).map (fun x => x.1) = some r ∧
      (calls BS fd n none w2).map (fun x => x.1) = some r := by
  obtain ⟨t1, w1, h1⟩ := calls_quiet BS fd hBS hfd n none w hq (by simp) h0
    (by simp only [Option.getD_none, List.length_nil]; omega)
  obtain ⟨t2, w3, h2⟩ := calls_quiet BS fd hBS hfd n none w2 hq2 (by simp)
    (by rw [hsame]; exact h0) (by simp only [Option.getD_none, List.length_nil]; omega)
  rw [hsame] at h2
  exact ⟨_, by rw [h1]; rfl, by rw [h2]; rfl⟩

/-- C17, amended, on the stream `a b newline c d e newline f` with chunk size 4, read once
with reads of 1, 2, 1 bytes and then full reads, and once with reads of 3 and 3
bytes and then full reads. -/
theorem C17_schedule_independent_witness :
    (0 : Int) < 4 ∧ (0 : Int) ≤ 3 ∧
      Quiet (scripted 3 [97, 98, 10, 99, 100, 101, 10, 102]
        [ReadEv.short 1, ReadEv.short 2, ReadEv.short 1] []) ∧
      Quiet (scripted 3 [97, 98, 10, 99, 100, 101, 10, 102]
        [ReadEv.short 3, ReadEv.short 3] []) ∧
      0 ∉ (scripted 3 [97, 98, 10, 99, 100, 101, 10, 102]
        [ReadEv.short 1, ReadEv.short 2, ReadEv.short 1] []).files 3 ∧
      (calls 4 3 4 none (scripted 3 [97, 98, 10, 99, 100, 101, 10, 102]
        [ReadEv.short 1, ReadEv.short 2, ReadEv.short 1] [])).map (fun x => x.1) =
        some [some [97, 98, 10], some [99, 100, 101, 10], some [102], none] ∧
      ∃ r, (calls 4 3 4 none (scripted 3 [97, 98, 10, 99, 100, 101, 10, 102]
          [ReadEv.short 1, ReadEv.short 2, ReadEv.short 1] [])).map (fun x => x.1) = some r ∧
        (calls 4 3 4 none (scripted 3 [97, 98, 10, 99, 100, 101, 10, 102]
          [ReadEv.short 3, ReadEv.short 3] [])).map (fun x => x.1) = some r :=
  ⟨by decide, by decide, by decide, by decide, by decide, by decide,
    C17_schedule_independent 4 3 (by decide) (by decide)
      (scripted 3 [97, 98, 10, 99, 100, 101, 10, 102]
        [ReadEv.short 1, ReadEv.short 2, ReadEv.short 1] [])
      (scripted 3 [97, 98, 10, 99, 100, 101, 10, 102] [ReadEv.short 3, ReadEv.short 3] [])
      (by decide) (by decide) rfl (by decide) 4⟩

/-- C18, as stated, fails: on the non-empty buffer `a newline b`, when the
allocation in copy_line fails there is no line at all, and when the allocation
in get_remainder fails the line is `a newline` and the remainder is `NULL`, so
line followed by remainder is `a newline`, not the buffer. -/
theorem C18_counterexample :
    (copy_line (some [97, 10, 98]) (scripted 3 [] [] [false])).1 = none ∧
      (copy_line (some [97, 10, 98]) (openFile 3 [])).1 = some [97, 10] ∧
      (get_remainder [97, 10, 98] (scripted 3 [] [] [false])).1 = none ∧
      ([97, 10] ++ (none : Option (List Byte)).getD [] : List Byte) ≠ [97, 10, 98] := by
  decide

/-- C18, amended: for every buffer holding a non-empty string, when the allocations
succeed, the line of copy_line followed by the remainder of get_remainder (an
absent remainder read as the empty string) is the string held in the buffer, the
buffer itself when it has no NUL; and the line has no newline before its last
byte. -/
theorem C18_split_round_trip (t : List Byte) (w w1 : World) (hm : AllocOk w)
    (hm1 : AllocOk w1) (hne : copy_str t ≠ []) :
    ∃ line, (copy_line (some t) w).1 = some line ∧
      line ++ ((get_remainder t w1).1).getD [] = copy_str t ∧
      (0 ∉ t → line ++ ((get_remainder t w1).1).getD [] = t) ∧
      10 ∉ line.dropLast := by
  have hsum : first_line (copy_str t) ++ ((get_remainder t w1).1).getD [] = copy_str t := by
    rw [get_remainder_any hm1]
    by_cases h10 : 10 ∈ copy_str t
    · rw [if_pos h10, Option.getD_some, first_after]
    · have h1 := first_after (copy_str t)
      rw [after_line_nil_of_not_mem h10] at h1
      rw [if_neg h10, Option.getD_none]
      exact h1
  refine ⟨first_line (copy_str t), ?_, hsum, ?_, first_line_dropLast _⟩
  · rw [copy_line_any hm, if_neg hne]
  · intro h0
    rw [hsum, copy_str_id h0]

/-- C18, amended, on the buffer `a b newline c newline`. -/
theorem C18_split_round_trip_witness :
    AllocOk (openFile 3 []) ∧ copy_str [97, 98, 10, 99, 10] ≠ [] ∧
      (copy_line (some [97, 98, 10, 99, 10]) (openFile 3 [])).1 = some [97, 98, 10] ∧
      (get_remainder [97, 98, 10, 99, 10] (openFile 3 [])).1 = some [99, 10] ∧
      ∃ line, (copy_line (some [97, 98, 10, 99, 10]) (openFile 3 [])).1 = some line ∧
        line ++ ((get_remainder [97, 98, 10, 99, 10] (openFile 3 [])).1).getD [] =
          copy_str [97, 98, 10, 99, 10] ∧
        (0 ∉ [97, 98, 10, 99, 10] →
          line ++ ((get_remainder [97, 98, 10, 99, 10] (openFile 3 [])).1).getD [] =
            [97, 98, 10, 99, 10]) ∧
        10 ∉ line.dropLast :=
  ⟨by decide, by decide, by decide, by decide,
    C18_split_round_trip [97, 98, 10, 99, 10] (openFile 3 []) (openFile 3 []) (by decide)
      (by decide) (by decide)⟩

/-- C19: every write into a freshly allocated buffer is below the size passed to
malloc. When get_remainder allocates, `text[i]` is the first newline, the size
logged is `ft_strlen(text) - i`, that size is the length of the remainder plus
one, every index written is below it, and the bytes written are the returned
remainder and its terminator. copy_line's size is `i + 2` and ft_strjoin's is
`ft_strlen(s1) + ft_strlen(s2) + 1`, every index they write is below their size,
and the bytes written are the returned string and its terminator. -/
theorem C19_writes_in_bounds :
    (∀ (t : List Byte) (w : World), t.getD (line_len t) 0 ≠ 0 →
        t.getD (line_len t) 0 = 10 ∧
        (get_remainder t w).2.asked = w.asked ++ [ft_strlen (some t) - line_len t] ∧
        ft_strlen (some t) - line_len t = (copy_str (t.drop (line_len t + 1))).length + 1 ∧
        (∀ p ∈ get_remainder_writes t, p.1 < ft_strlen (some t) - line_len t) ∧
        (∀ r, (get_remainder t w).1 = some r →
          (get_remainder_writes t).map Prod.snd = r ++ [0])) ∧
    (∀ (t : List Byte) (w : World), t.getD 0 0 ≠ 0 →
        (copy_line (some t) w).2.asked = w.asked ++ [line_len t + 2] ∧
        (∀ p ∈ copy_line_writes t, p.1 < line_len t + 2) ∧
        (∀ r, (copy_line (some t) w).1 = some r →
          (copy_line_writes t).map Prod.snd = r ++ [0])) ∧
    (∀ (s1 s2 : Option (List Byte)) (w : World), ¬ (s1 = none ∧ s2 = none) →
        (ft_strjoin s1 s2 w).2.asked = w.asked ++ [ft_strlen s1 + ft_strlen s2 + 1] ∧
        (∀ p ∈ strjoin_writes s1 s2, p.1 < ft_strlen s1 + ft_strlen s2 + 1) ∧
        (∀ r, (ft_strjoin s1 s2 w).1 = some r →
          (strjoin_writes s1 s2).map Prod.snd = r ++ [0])) := by
  refine ⟨?_, ?_, ?_⟩
  · intro t w h
    have hsize := remainder_size t h
    have hma := malloc_asked (ft_strlen (some t) - line_len t) w
    refine ⟨?_, ?_, ?_, ?_, ?_⟩
    · rcases line_end t with e | e
      · exact absurd e h
      · exact e
    · simp only [get_remainder, h, if_false]
      rcases hmal : malloc (ft_strlen (some t) - line_len t) w with ⟨ok, w1⟩
      rw [hmal] at hma
      cases ok <;> exact hma
    · simp only [ft_strlen]
      rw [hsize, strlen_copy_str]
    · intro p hp
      simp only [ft_strlen]
      rw [hsize]
      simp only [get_remainder_writes, List.mem_append, List.mem_singleton] at hp
      rcases hp with hp | hp
      · have := copy_writes_idx _ 0 p hp
        omega
      · rw [hp, copy_writes_length]
        simp
    · intro r hr
      simp only [get_remainder, h, if_false] at hr
      rcases hmal : malloc (ft_strlen (some t) - line_len t) w with ⟨ok, w1⟩
      rw [hmal] at hr
      cases ok with
      | false => simp at hr
      | true =>
          simp only [Option.some.injEq] at hr
          simp only [get_remainder_writes, List.map_append, copy_writes_val, List.map_cons,
            List.map_nil, hr]
  · intro t w h
    have hma := malloc_asked (line_len t + 2) w
    refine ⟨?_, ?_, ?_⟩
    · simp only [copy_line, h, if_false]
      rcases hmal : malloc (line_len t + 2) w with ⟨ok, w1⟩
      rw [hmal] at hma
      cases ok
      · exact hma
      · by_cases h10 : t.getD (line_len t) 0 = 10
        · simp only [h10, if_true]
          exact hma
        · simp only [h10, if_false]
          exact hma
    · intro p hp
      unfold copy_line_writes at hp
      by_cases h10 : t.getD (line_len t) 0 = 10
      · rw [if_pos h10] at hp
        simp only [List.mem_append, List.mem_cons, List.mem_singleton, List.not_mem_nil,
          or_false] at hp
        rcases hp with hp | hp | hp
        · have := line_writes_idx t 0 p hp
          omega
        · rw [hp]
          simp
        · rw [hp]
          simp
      · rw [if_neg h10] at hp
        simp only [List.mem_append, List.mem_singleton] at hp
        rcases hp with hp | hp
        · have := line_writes_idx t 0 p hp
          omega
        · rw [hp]
          simp
    · intro r hr
      simp only [copy_line, h, if_false] at hr
      rcases hmal : malloc (line_len t + 2) w with ⟨ok, w1⟩
      rw [hmal] at hr
      cases ok with
      | false => simp at hr
      | true =>
          unfold copy_line_writes
          by_cases h10 : t.getD (line_len t) 0 = 10
          · simp only [h10, if_true, Option.some.injEq] at hr
            rw [if_pos h10, ← hr]
            simp [line_writes_val]
          · simp only [h10, if_false, Option.some.injEq] at hr
            rw [if_neg h10, ← hr]
            simp [line_writes_val]
  · intro s1 s2 w h
    have hma := malloc_asked (ft_strlen s1 + ft_strlen s2 + 1) w
    have hl1 : ft_strlen s1 = strlen_loop (s1.getD []) := by
      cases s1 <;> rfl
    have hl2 : ft_strlen s2 = strlen_loop (s2.getD []) := by
      cases s2 <;> rfl
    refine ⟨?_, ?_, ?_⟩
    · simp only [ft_strjoin, h, if_false]
      rcases hmal : malloc (ft_strlen s1 + ft_strlen s2 + 1) w with ⟨ok, w1⟩
      rw [hmal] at hma
      cases ok <;> exact hma
    · intro p hp
      rw [hl1, hl2]
      simp only [strjoin_writes, List.mem_append, List.mem_singleton] at hp
      rcases hp with (hp | hp) | hp
      · have := copy_writes_idx _ 0 p hp
        omega
      · have := copy_writes_idx _ _ p hp
        rw [copy_writes_length] at this
        omega
      · rw [hp, copy_writes_length, copy_writes_length]
        simp
    · intro r hr
      simp only [ft_strjoin, h, if_false] at hr
      rcases hmal : malloc (ft_strlen s1 + ft_strlen s2 + 1) w with ⟨ok, w1⟩
      rw [hmal] at hr
      cases ok with
      | false => simp at hr
      | true =>
          simp only [Option.some.injEq] at hr
          rw [← hr]
          cases s1 <;> cases s2 <;>
            simp [strjoin_writes, copy_writes_val, copy_str, copy_writes]

/-- C19 on the buffer `a newline b c` for get_remainder (3 bytes allocated,
indices 0, 1, 2 written) and copy_line (3 bytes allocated, indices 0, 1, 2
written), and on the strings `a b` and `c` for ft_strjoin (4 bytes allocated,
indices 0 to 3 written). -/
theorem C19_writes_in_bounds_witness :
    (get_remainder [97, 10, 98, 99] (openFile 3 [])).2.asked = [3] ∧
      get_remainder_writes [97, 10, 98, 99] = [(0, 98), (1, 99), (2, 0)] ∧
      (copy_line (some [97, 10, 98, 99]) (openFile 3 [])).2.asked = [3] ∧
      copy_line_writes [97, 10, 98, 99] = [(0, 97), (1, 10), (2, 0)] ∧
      (ft_strjoin (some [97, 98]) (some [99]) (openFile 3 [])).2.asked = [4] ∧
      strjoin_writes (some [97, 98]) (some [99]) = [(0, 97), (1, 98), (2, 99), (3, 0)] ∧
      (∀ p ∈ get_remainder_writes [97, 10, 98, 99],
        p.1 < ft_strlen (some [97, 10, 98, 99]) - line_len [97, 10, 98, 99]) ∧
      (∀ p ∈ copy_line_writes [97, 10, 98, 99], p.1 < line_len [97, 10, 98, 99] + 2) ∧
      (∀ p ∈ strjoin_writes (some [97, 98]) (some [99]),
        p.1 < ft_strlen (some [97, 98]) + ft_strlen (some [99]) + 1) :=
  ⟨by decide, by decide, by decide, by decide, by decide, by decide,
    (C19_writes_in_bounds.1 [97, 10, 98, 99] (openFile 3 []) (by decide)).2.2.2.1,
    (C19_writes_in_bounds.2.1 [97, 10, 98, 99] (openFile 3 []) (by decide)).2.1,
    (C19_writes_in_bounds.2.2 (some [97, 98]) (some [99]) (openFile 3 []) (by decide)).2.1⟩

end GNL
